import Mathlib

/-!
Verification model of `xdgen` (`src/lib.rs`): a tool that injects per-language
translated text into desktop-entry and metainfo templates.

The embedding models the repository's own code faithfully, statement by
statement.  External collaborators (the Fluent catalog engine, the
freedesktop-entry parser, the `unic_langid` locale parser, the `xmltree`
serializer) are modelled at their interface boundary as the spec describes
them; each such definition carries a doc comment saying so.
-/

/-! ## Strings as character lists: a fully computable lexicographic order -/

/-- Strict lexicographic order on character lists (by code point), used to
model the `Ord` instances backing the `BTreeMap`s in the source. -/
def charListLt : List Char → List Char → Bool
  | [], [] => false
  | [], _ :: _ => true
  | _ :: _, [] => false
  | a :: as, b :: bs =>
    if a.toNat < b.toNat then true
    else if b.toNat < a.toNat then false
    else charListLt as bs

/-- Strict order on strings via their character lists. -/
def strLt (a b : String) : Bool := charListLt a.data b.data

theorem charEqOfNotLt {x y : Char} (hxy : ¬ x.toNat < y.toNat)
    (hyx : ¬ y.toNat < x.toNat) : x = y := by
  have h : x.toNat = y.toNat := Nat.le_antisymm (Nat.not_lt.mp hyx) (Nat.not_lt.mp hxy)
  exact Char.ext (UInt32.ext_iff.mpr h)

theorem charListLt_irrefl (l : List Char) : charListLt l l = false := by
  induction l with
  | nil => rfl
  | cons a as ih => simp [charListLt, ih]

theorem charListLt_trans {a b c : List Char}
    (hab : charListLt a b = true) (hbc : charListLt b c = true) :
    charListLt a c = true := by
  induction a generalizing b c with
  | nil =>
    cases b with
    | nil => simp [charListLt] at hab
    | cons y ys =>
      cases c with
      | nil => simp [charListLt] at hbc
      | cons z zs => simp [charListLt]
  | cons x xs ih =>
    cases b with
    | nil => simp [charListLt] at hab
    | cons y ys =>
      cases c with
      | nil => simp [charListLt] at hbc
      | cons z zs =>
        simp only [charListLt] at hab hbc ⊢
        by_cases hxy : x.toNat < y.toNat
        · by_cases hyz : y.toNat < z.toNat
          · simp [Nat.lt_trans hxy hyz]
          · rw [if_neg hyz] at hbc
            by_cases hzy : z.toNat < y.toNat
            · rw [if_pos hzy] at hbc; exact absurd hbc (by simp)
            · have hyz2 : y.toNat = z.toNat :=
                Nat.le_antisymm (Nat.not_lt.mp hzy) (Nat.not_lt.mp hyz)
              have hxz : x.toNat < z.toNat := hyz2 ▸ hxy
              simp [hxz]
        · rw [if_neg hxy] at hab
          by_cases hyx : y.toNat < x.toNat
          · rw [if_pos hyx] at hab; exact absurd hab (by simp)
          · rw [if_neg hyx] at hab
            have hxy2 : x.toNat = y.toNat :=
              Nat.le_antisymm (Nat.not_lt.mp hyx) (Nat.not_lt.mp hxy)
            by_cases hyz : y.toNat < z.toNat
            · have hxz : x.toNat < z.toNat := hxy2 ▸ hyz
              simp [hxz]
            · rw [if_neg hyz] at hbc
              by_cases hzy : z.toNat < y.toNat
              · rw [if_pos hzy] at hbc; exact absurd hbc (by simp)
              · rw [if_neg hzy] at hbc
                have hyz2 : y.toNat = z.toNat :=
                  Nat.le_antisymm (Nat.not_lt.mp hzy) (Nat.not_lt.mp hyz)
                have h6 : ¬ x.toNat < z.toNat := by omega
                have h7 : ¬ z.toNat < x.toNat := by omega
                rw [if_neg h6, if_neg h7]
                exact ih hab hbc

theorem charListLt_total (a b : List Char) :
    charListLt a b = true ∨ charListLt b a = true ∨ a = b := by
  induction a generalizing b with
  | nil =>
    cases b with
    | nil => right; right; rfl
    | cons y ys => left; rfl
  | cons x xs ih =>
    cases b with
    | nil => right; left; rfl
    | cons y ys =>
      by_cases hxy : x.toNat < y.toNat
      · left; simp [charListLt, hxy]
      · by_cases hyx : y.toNat < x.toNat
        · right; left; simp [charListLt, hyx]
        · have hxy2 : x = y := charEqOfNotLt hxy hyx
          rcases ih ys with h | h | h
          · left; simp [charListLt, hxy, hyx, h]
          · right; left; simp [charListLt, hxy, hyx, h]
          · right; right; simp [hxy2, h]

/-! ## Language identifiers

Modelled from the spec: the external `unic_langid::LanguageIdentifier` type,
"a normalized locale identifier"; "two tags are equal iff their normalized
forms are equal".  The model keeps the language and optional region subtags. -/

structure LangId where
  language : String
  region : Option String
deriving DecidableEq, Repr

/-- Canonical textual form of a language identifier, as `Display` renders it. -/
def LangId.render (l : LangId) : String :=
  l.language ++ (match l.region with | none => "" | some r => "-" ++ r)

/-- Regions compare with `none` first, mirroring a field-wise derived order. -/
def optStrLt : Option String → Option String → Bool
  | none, none => false
  | none, some _ => true
  | some _, none => false
  | some a, some b => strLt a b

/-- Strict total order on language identifiers: by language subtag, then by
region subtag.  Models the `Ord` used by the source's `BTreeMap` keys. -/
def langLt (a b : LangId) : Bool :=
  if strLt a.language b.language then true
  else if strLt b.language a.language then false
  else optStrLt a.region b.region

theorem strLt_irrefl (s : String) : strLt s s = false := charListLt_irrefl s.data

theorem strLt_trans {a b c : String} (hab : strLt a b = true) (hbc : strLt b c = true) :
    strLt a c = true := charListLt_trans hab hbc

theorem strLt_total (a b : String) : strLt a b = true ∨ strLt b a = true ∨ a = b := by
  rcases charListLt_total a.data b.data with h | h | h
  · exact Or.inl h
  · exact Or.inr (Or.inl h)
  · refine Or.inr (Or.inr ?_)
    cases a with
    | mk da => cases b with
      | mk db => simp only at h; rw [h]

theorem strLt_asymm {a b : String} (hab : strLt a b = true) : strLt b a = false := by
  by_contra h
  have hba : strLt b a = true := by
    cases hb : strLt b a with
    | false => exact absurd hb h
    | true => rfl
  have := strLt_trans hab hba
  rw [strLt_irrefl] at this
  exact Bool.false_ne_true this

theorem optStrLt_irrefl (o : Option String) : optStrLt o o = false := by
  cases o with
  | none => rfl
  | some s => exact strLt_irrefl s

theorem optStrLt_trans {a b c : Option String}
    (hab : optStrLt a b = true) (hbc : optStrLt b c = true) : optStrLt a c = true := by
  cases a with
  | none =>
    cases b with
    | none => simp [optStrLt] at hab
    | some y =>
      cases c with
      | none => simp [optStrLt] at hbc
      | some z => rfl
  | some x =>
    cases b with
    | none => simp [optStrLt] at hab
    | some y =>
      cases c with
      | none => simp [optStrLt] at hbc
      | some z => exact strLt_trans hab hbc

theorem optStrLt_total (a b : Option String) :
    optStrLt a b = true ∨ optStrLt b a = true ∨ a = b := by
  cases a with
  | none => cases b with
    | none => right; right; rfl
    | some s => left; rfl
  | some x => cases b with
    | none => right; left; rfl
    | some y =>
      rcases strLt_total x y with h | h | h
      · left; exact h
      · right; left; exact h
      · right; right; rw [h]

theorem langLt_irrefl (l : LangId) : langLt l l = false := by
  simp [langLt, strLt_irrefl, optStrLt_irrefl]

theorem langLt_trans {a b c : LangId} (hab : langLt a b = true) (hbc : langLt b c = true) :
    langLt a c = true := by
  unfold langLt at hab hbc ⊢
  by_cases h1 : strLt a.language b.language = true
  · by_cases h2 : strLt b.language c.language = true
    · rw [if_pos (strLt_trans h1 h2)]
    · rw [if_neg h2] at hbc
      by_cases h3 : strLt c.language b.language = true
      · rw [if_pos h3] at hbc; exact absurd hbc (by simp)
      · rcases strLt_total b.language c.language with h | h | h
        · exact absurd h h2
        · exact absurd h h3
        · rw [if_pos (h ▸ h1)]
  · rw [if_neg h1] at hab
    by_cases h4 : strLt b.language a.language = true
    · rw [if_pos h4] at hab; exact absurd hab (by simp)
    · rw [if_neg h4] at hab
      rcases strLt_total a.language b.language with h | h | h
      · exact absurd h h1
      · exact absurd h h4
      · by_cases h2 : strLt b.language c.language = true
        · rw [if_pos (h ▸ h2)]
        · rw [if_neg h2] at hbc
          by_cases h3 : strLt c.language b.language = true
          · rw [if_pos h3] at hbc; exact absurd hbc (by simp)
          · rw [if_neg h3] at hbc
            have h6 : strLt a.language c.language ≠ true := by rw [h]; exact h2
            have h7 : strLt c.language a.language ≠ true := by rw [h]; exact h3
            rw [if_neg h6, if_neg h7]
            exact optStrLt_trans hab hbc

theorem langLt_total (a b : LangId) : langLt a b = true ∨ langLt b a = true ∨ a = b := by
  unfold langLt
  rcases strLt_total a.language b.language with h | h | h
  · left; simp [h]
  · right; left; simp [h]
  · have h1 : strLt a.language b.language = false := by rw [h]; exact strLt_irrefl _
    have h2 : strLt b.language a.language = false := by rw [h]; exact strLt_irrefl _
    rcases optStrLt_total a.region b.region with hr | hr | hr
    · left; simp [h1, h2, hr]
    · right; left; simp [h1, h2, hr]
    · right; right
      cases a with
      | mk la ra => cases b with
        | mk lb rb =>
          simp only at h hr
          rw [h, hr]

theorem langLt_asymm {a b : LangId} (hab : langLt a b = true) : langLt b a = false := by
  by_contra h
  have hba : langLt b a = true := by
    cases hb : langLt b a with
    | false => exact absurd hb h
    | true => rfl
  have := langLt_trans hab hba
  rw [langLt_irrefl] at this
  exact Bool.false_ne_true this

theorem langLt_ne {a b : LangId} (hab : langLt a b = true) : a ≠ b := by
  intro h
  rw [h, langLt_irrefl] at hab
  exact Bool.false_ne_true hab

/-! ## Sorted association lists, modelling `BTreeMap` -/

/-- Insertion into a sorted association list, replacing an equal key: models
`BTreeMap::insert` (iteration order is ascending key order; inserting an
existing key overwrites its value). -/
def insertSorted {β : Type} (k : LangId) (v : β) : List (LangId × β) → List (LangId × β)
  | [] => [(k, v)]
  | (k2, v2) :: rest =>
    if k = k2 then (k, v) :: rest
    else if langLt k k2 then (k, v) :: (k2, v2) :: rest
    else (k2, v2) :: insertSorted k v rest

/-- Keys of an association list. -/
def keysOf {β : Type} (l : List (LangId × β)) : List LangId := l.map Prod.fst

theorem mem_keys_insertSorted {β : Type} (k x : LangId) (v : β) (l : List (LangId × β)) :
    x ∈ keysOf (insertSorted k v l) ↔ x = k ∨ x ∈ keysOf l := by
  induction l with
  | nil => simp [insertSorted, keysOf]
  | cons p rest ih =>
    obtain ⟨k2, v2⟩ := p
    by_cases h1 : k = k2
    · subst h1
      simp [insertSorted, keysOf]
    · by_cases h2 : langLt k k2 = true
      · simp [insertSorted, h1, h2, keysOf]
      · simp only [insertSorted, if_neg h1, if_neg h2]
        simp [keysOf] at ih ⊢
        tauto

theorem length_insertSorted_of_not_mem {β : Type} (k : LangId) (v : β)
    (l : List (LangId × β)) (h : k ∉ keysOf l) :
    (insertSorted k v l).length = l.length + 1 := by
  induction l with
  | nil => rfl
  | cons p rest ih =>
    obtain ⟨k2, v2⟩ := p
    simp [keysOf] at h
    obtain ⟨hne, hrest⟩ := h
    by_cases h2 : langLt k k2 = true
    · simp [insertSorted, hne, h2]
    · simp [insertSorted, hne, h2]
      exact ih (by simp [keysOf]; exact hrest)

/-- Sortedness of an association list by strictly increasing keys. -/
def SortedKeys {β : Type} (l : List (LangId × β)) : Prop :=
  l.Pairwise (fun p q => langLt p.1 q.1 = true)

theorem sortedKeys_insertSorted {β : Type} (k : LangId) (v : β) (l : List (LangId × β))
    (h : SortedKeys l) : SortedKeys (insertSorted k v l) := by
  induction l with
  | nil => simp [insertSorted, SortedKeys]
  | cons p rest ih =>
    obtain ⟨k2, v2⟩ := p
    rw [SortedKeys, List.pairwise_cons] at h
    obtain ⟨hall, hrest⟩ := h
    by_cases h1 : k = k2
    · subst h1
      simp only [insertSorted, if_pos rfl]
      exact List.pairwise_cons.mpr ⟨hall, hrest⟩
    · by_cases h2 : langLt k k2 = true
      · simp only [insertSorted, if_neg h1, if_pos h2]
        refine List.pairwise_cons.mpr ⟨?_, List.pairwise_cons.mpr ⟨hall, hrest⟩⟩
        intro q hq
        rcases List.mem_cons.mp hq with hq | hq
        · rw [hq]; exact h2
        · exact langLt_trans h2 (hall q hq)
      · simp only [insertSorted, if_neg h1, if_neg h2]
        refine List.pairwise_cons.mpr ⟨?_, ih hrest⟩
        intro q hq
        have hq2 : q.1 = k ∨ q.1 ∈ keysOf rest := by
          have hmem : q.1 ∈ keysOf (insertSorted k v rest) :=
            List.mem_map.mpr ⟨q, hq, rfl⟩
          exact (mem_keys_insertSorted k q.1 v rest).mp hmem
        rcases hq2 with hq2 | hq2
        · rcases langLt_total k2 k with h | h | h
          · rw [hq2]; exact h
          · exact absurd h h2
          · exact absurd h.symm h1
        · rcases List.mem_map.mp hq2 with ⟨p3, hp3, hfst⟩
          have h5 := hall p3 hp3
          rw [hfst] at h5
          exact h5

theorem sortedKeys_nodup {β : Type} (l : List (LangId × β)) (h : SortedKeys l) :
    (keysOf l).Nodup := by
  induction l with
  | nil => simp [keysOf]
  | cons p rest ih =>
    rw [SortedKeys, List.pairwise_cons] at h
    obtain ⟨hall, hrest⟩ := h
    rw [keysOf, List.map_cons, List.nodup_cons]
    refine ⟨?_, ih hrest⟩
    intro hmem
    rcases List.mem_map.mp hmem with ⟨q, hq, hfst⟩
    have h5 := hall q hq
    rw [hfst] at h5
    exact (langLt_ne h5) rfl

/-! ## The Fluent catalog engine, at its interface boundary

Modelled from the spec: the external translation-catalog engine is consumed
as a lookup service — "given a language and a message identifier, produce
formatted text or absent"; formatting may report non-fatal errors.  A pattern
is modelled by the text formatting produces together with the number of
errors formatting reports. -/

structure FluentPattern where
  formatted : String
  fmtErrors : Nat
deriving DecidableEq, Repr

structure FluentMessage where
  ident : String
  value : Option FluentPattern
deriving DecidableEq, Repr

/-- Modelled from the spec: a parsed catalog as the external parser returns
it — the recovered messages together with the number of parse errors
(parse errors are non-fatal; the recovered content is still usable). -/
structure FluentSource where
  messages : List FluentMessage
  parseErrors : Nat
deriving DecidableEq, Repr

structure FluentBundle where
  messages : List FluentMessage
deriving DecidableEq, Repr

/-- `bundle.get_message(id)`: first message with the given identifier. -/
def FluentBundle.getMessage (b : FluentBundle) (id : String) : Option FluentMessage :=
  b.messages.find? (fun m => m.ident = id)

/-- `bundle.format_pattern(pat, None, errs)`: the formatted text and the
number of errors reported into `errs`.  Modelled at the engine interface. -/
def formatPattern (p : FluentPattern) : String × Nat := (p.formatted, p.fmtErrors)

/-- `FluentBundle::new` plus `add_resource`: the bundle holding the parsed
resource's messages (add conflicts are diagnostics only in the source). -/
def mkBundle (src : FluentSource) : FluentBundle := ⟨src.messages⟩

/-! ## `Context` and `Context::new` (`src/lib.rs` lines 5–68) -/

structure Context where
  lang_bundles : List (LangId × FluentBundle)

/-- One directory entry of the i18n root, at the file-system interface:
its name, whether it is a directory, whether reading the entry metadata
succeeds, and the content of its `<domain>.ftl` file (`none` = unreadable),
already in the form the external catalog parser returns. -/
structure DirEntry where
  name : String
  isDir : Bool
  readable : Bool
  catalog : Option FluentSource

/-- Modelled from the spec: the external locale parser
(`name.parse::<LanguageIdentifier>()`).  A name is a language subtag
(2–8 ASCII letters, normalized to lowercase) optionally followed by `-` or
`_` and a region subtag (2 ASCII letters or 3 digits, normalized to
uppercase).  Distinct names can normalize to the same identifier. -/
def langParse (s : String) : Option LangId :=
  let parts := s.data.splitOnP (fun c => c = '-' ∨ c = '_')
  match parts with
  | [l] =>
    if 2 ≤ l.length ∧ l.length ≤ 8 ∧ l.all Char.isAlpha then
      some ⟨⟨l.map Char.toLower⟩, none⟩
    else none
  | [l, r] =>
    if (2 ≤ l.length ∧ l.length ≤ 8 ∧ l.all Char.isAlpha) ∧
        ((r.length = 2 ∧ r.all Char.isAlpha) ∨ (r.length = 3 ∧ r.all Char.isDigit)) then
      some ⟨⟨l.map Char.toLower⟩, some ⟨r.map Char.toUpper⟩⟩
    else none
  | _ => none

/-- First loop of `Context::new`: collect `lang_files` – for each readable
directory entry, parse its name as a language identifier (failure is fatal)
and record the entry under that key in a `BTreeMap`. -/
def collectLangFiles : List DirEntry → Except String (List (LangId × DirEntry))
  | [] => .ok []
  | e :: rest =>
    if ¬ e.readable then .error "cannot read directory entry"
    else if ¬ e.isDir then collectLangFiles rest
    else
      match langParse e.name with
      | none => .error ("invalid language identifier " ++ e.name)
      | some lang =>
        match collectLangFiles rest with
        | .error msg => .error msg
        | .ok m => .ok (insertSorted lang e m)

/-- Second loop of `Context::new`: for each recorded language read its
catalog file (read failure is fatal), parse it (parse errors are
diagnostics only; the recovered resource is used), build a bundle, insert. -/
def buildBundles : List (LangId × DirEntry) → Except String (List (LangId × FluentBundle))
  | [] => .ok []
  | (lang, e) :: rest =>
    match e.catalog with
    | none => .error ("cannot read catalog for " ++ lang.render)
    | some src =>
      match buildBundles rest with
      | .error msg => .error msg
      | .ok m => .ok (insertSorted lang (mkBundle src) m)

/-- `Context::new(i18n_dir, domain)` over the directory's entries. -/
def contextNew (entries : List DirEntry) : Except String Context :=
  match collectLangFiles entries with
  | .error msg => .error msg
  | .ok langFiles =>
    match buildBundles langFiles with
    | .error msg => .error msg
    | .ok bundles => .ok ⟨bundles⟩

/-! ## `FluentString::get` (`src/lib.rs` lines 73–98) -/

/-- Loop body of `FluentString::get` over the registry entries in iteration
(ascending key) order: skip a language if the bundle has no message with
this identifier or the message has no value pattern; otherwise format the
pattern (formatting errors are reported as diagnostics but the result is
still inserted into `results`) and record the text under the language.
Since the keys arrive in ascending order, the `BTreeMap` built by the
loop's inserts holds exactly these pairs in this order. -/
def fluentGetList (id : String) : List (LangId × FluentBundle) → List (LangId × String)
  | [] => []
  | (lang, bundle) :: rest =>
    match bundle.getMessage id with
    | none => fluentGetList id rest
    | some msg =>
      match msg.value with
      | none => fluentGetList id rest
      | some pat => (lang, (formatPattern pat).1) :: fluentGetList id rest

/-- `FluentString::get` (`src/lib.rs` lines 74–97). -/
def fluentGet (id : String) (ctx : Context) : List (LangId × String) :=
  fluentGetList id ctx.lang_bundles

/-! ## Literal string replacement, modelling `str::replace` -/

/-- Replacement of every leftmost non-overlapping occurrence of a nonempty
pattern, on character lists; the fuel argument (instantiated with the input
length) only makes the recursion structural. -/
def replaceCharsFuel (pat repl : List Char) : Nat → List Char → List Char
  | _, [] => []
  | 0, s => s
  | fuel + 1, x :: xs =>
    if pat.isPrefixOf (x :: xs) then
      repl ++ replaceCharsFuel pat repl fuel ((x :: xs).drop pat.length)
    else
      x :: replaceCharsFuel pat repl fuel xs

/-- Models Rust `str::replace(pat, repl)` for a nonempty pattern. -/
def replaceStr (s pat repl : String) : String :=
  ⟨replaceCharsFuel pat.data repl.data s.data.length s.data⟩

/-- `lang.to_string().replace("-", "_")`: the language tag with hyphens
replaced by underscores, used both for `Name[lang]` suffixes and for the
`lang` attribute value of metainfo elements. -/
def langUnderscore (l : LangId) : String := replaceStr l.render "-" "_"

/-! ## Desktop-entry templates at the parser interface

Modelled from the spec: the external freedesktop-entry parser presents the
template as "a sequence of sections, each holding an ordered sequence of
(key, optional-bracket-parameter, list-of-values) attributes, preserving
original order and formatting exactly for re-emission". -/

structure AttrKey where
  key : String
  par : Option String
deriving DecidableEq, Repr

structure DSection where
  name : String
  attrs : List (AttrKey × List String)
deriving DecidableEq, Repr

/-- The Entity Descriptor `App`: a required title message identifier and
optional comment and keywords message identifiers (`src/lib.rs` 100–124). -/
structure App where
  name : String
  comment : Option String
  keywords : Option String
deriving DecidableEq, Repr

/-- One output line of the desktop expander, tagged by whether the line
re-emits an original template line or is an appended localized line. -/
inductive OutLine where
  | original (s : String)
  | injected (s : String)
deriving DecidableEq, Repr

def OutLine.text : OutLine → String
  | original s => s
  | injected s => s

/-- Re-emission of one original attribute line: `key`, then `[param]` when
the key has a bracket parameter, then `=value` (`src/lib.rs` 138–144). -/
def attrLineText (k : AttrKey) (v : String) : String :=
  k.key ++ (match k.par with | none => "" | some p => "[" ++ p ++ "]") ++ "=" ++ v

/-- The `match (name.as_str(), key.key.as_str())` of `src/lib.rs` 146–151:
which populated descriptor field (if any) an attribute key maps to. -/
def fluentFor (app : App) (sectionName key : String) : Option String :=
  match sectionName, key with
  | "Desktop Entry", "Name" => some app.name
  | "Desktop Entry", "Comment" => app.comment
  | "Desktop Entry", "Keywords" => app.keywords
  | _, _ => none

/-- Processing of one parsed attribute (`src/lib.rs` 137–177): re-emit each
original value line; when the key maps to a populated descriptor field,
fail if the line carries a bracket parameter, otherwise append one
localized line per resolved language. -/
def expandAttr (app : App) (ctx : Context) (sectionName : String)
    (a : AttrKey × List String) : Except String (List OutLine) :=
  let origLines := a.2.map (fun v => OutLine.original (attrLineText a.1 v))
  match fluentFor app sectionName a.1.key with
  | none => .ok origLines
  | some fl =>
    match a.1.par with
    | some p => .error ("template has localized " ++ a.1.key ++ "[" ++ p ++ "]")
    | none =>
      .ok (origLines ++ (fluentGet fl ctx).map
        (fun lv => OutLine.injected
          (a.1.key ++ "[" ++ langUnderscore lv.1 ++ "]=" ++ lv.2)))

/-- Error-propagating map, the shape of a Rust loop whose body can
short-circuit with `?` or `return Err`. -/
def mapExcept {α β : Type} (f : α → Except String β) : List α → Except String (List β)
  | [] => .ok []
  | x :: xs =>
    match f x with
    | .error e => .error e
    | .ok y =>
      match mapExcept f xs with
      | .error e => .error e
      | .ok ys => .ok (y :: ys)

/-- Processing of one section (`src/lib.rs` 134–178): emit the `[name]`
header line, then process each attribute in order. -/
def expandSection (app : App) (ctx : Context) (sec : DSection) :
    Except String (List OutLine) :=
  match mapExcept (expandAttr app ctx sec.name) sec.attrs with
  | .error e => .error e
  | .ok bodies => .ok (OutLine.original ("[" ++ sec.name ++ "]") :: bodies.flatten)

/-- `App::expand_desktop` over the parsed template, producing the output
lines in order (`src/lib.rs` 126–181). -/
def expandDesktop (app : App) (ctx : Context) (t : List DSection) :
    Except String (List OutLine) :=
  match mapExcept (expandSection app ctx) t with
  | .error e => .error e
  | .ok secs => .ok secs.flatten

/-- The final output text: each line followed by a newline, as `writeln!`
produces. -/
def unlinesText (ls : List OutLine) : String :=
  ls.foldr (fun l acc => l.text ++ "\x0a" ++ acc) ""

/-- The lines the expander appends (localized lines); removing them from
the output means keeping exactly the `original` lines. -/
def stripInjected (ls : List OutLine) : List OutLine :=
  ls.filter (fun l => match l with | .original _ => true | .injected _ => false)

/-- The input template's own lines: every section header and every original
attribute line, in original order. -/
def renderLines (t : List DSection) : List OutLine :=
  (t.map (fun sec =>
    OutLine.original ("[" ++ sec.name ++ "]") ::
      sec.attrs.flatMap (fun a => a.2.map
        (fun v => OutLine.original (attrLineText a.1 v))))).flatten

/-! ## Metainfo templates at the `xmltree` interface -/

/-- An XML node as `xmltree` presents it: an element with a name, attribute
map and child list, or a text node. -/
inductive XNode where
  | text (s : String)
  | elem (name : String) (attributes : List (String × String)) (children : List XNode)

/-- The anchor scan loop of `expand_locale` (`src/lib.rs` 199–222): walk the
children in order with their indices; at each element whose name is the tag,
fail with "has localized tag" if it carries any attributes, otherwise fail
with "has redefined tag" if an earlier match was recorded, otherwise record
its index and continue. -/
def scanAnchorGo (tag : String) :
    List XNode → Nat → Option Nat → Except String (Option Nat)
  | [], _, acc => .ok acc
  | child :: rest, index, acc =>
    match child with
    | .elem n attrs _ =>
      if n = tag then
        if attrs ≠ [] then .error ("template has localized tag " ++ tag)
        else if acc.isSome then .error ("template has redefined tag " ++ tag)
        else scanAnchorGo tag rest (index + 1) (some index)
      else scanAnchorGo tag rest (index + 1) acc
    | .text _ => scanAnchorGo tag rest (index + 1) acc

/-- The anchor scan over a child list, starting at index 0 with no match. -/
def scanAnchor (tag : String) (children : List XNode) : Except String (Option Nat) :=
  scanAnchorGo tag children 0 none

/-- `Vec::insert(index, node)` for an in-range index: the node is placed at
the position, shifting the tail. -/
def insertAt (n : Nat) (a : XNode) (l : List XNode) : List XNode :=
  l.take n ++ a :: l.drop n

/-- The new localized element built in `src/lib.rs` 233–238: same tag, one
`lang` attribute holding the underscored language tag, one text child. -/
def mkLangElem (tag : String) (lang : LangId) (value : String) : XNode :=
  .elem tag [("lang", langUnderscore lang)] [.text value]

/-- The insertion loop of `src/lib.rs` 233–241: for each resolved language
in order, advance the index and insert the new element there. -/
def insertLoop (tag : String) (children : List XNode) (index : Nat) :
    List (LangId × String) → List XNode
  | [] => children
  | (lang, value) :: rest =>
    insertLoop tag (insertAt (index + 1) (mkLangElem tag lang value) children)
      (index + 1) rest

/-- The `expand_locale` closure (`src/lib.rs` 195–244): scan for the single
unattributed anchor element; no match is the "missing tag" error; then
insert one localized sibling per resolved language right after it. -/
def expandLocale (ctx : Context) (templateChildren : List XNode) (tag : String)
    (fl : String) : Except String (List XNode) :=
  match scanAnchor tag templateChildren with
  | .error e => .error e
  | .ok none => .error ("template is missing tag " ++ tag)
  | .ok (some index) =>
    .ok (insertLoop tag templateChildren index (fluentGet fl ctx))

/-- Character-list splitting on a separator character (`str::split`). -/
def splitCharList (c : Char) : List Char → List (List Char)
  | [] => [[]]
  | x :: xs =>
    if x = c then [] :: splitCharList c xs
    else
      match splitCharList c xs with
      | [] => [[x]]
      | g :: gs => (x :: g) :: gs

/-- Rust `str::split_terminator(';')`: the `;`-separated substrings, with
the final empty substring dropped when the string ends in the separator. -/
def splitTerminatorSemi (s : String) : List String :=
  let parts := splitCharList ';' s.data
  let kept := if parts.getLast? = some [] then parts.dropLast else parts
  kept.map (fun l => (⟨l⟩ : String))

/-- The new keyword element built in `src/lib.rs` 257–261: a `keyword`
element with a `lang` attribute and one text child. -/
def mkKeywordElem (lang : LangId) (value : String) : XNode :=
  .elem "keyword" [("lang", langUnderscore lang)] [.text value]

/-- The keyword loop of `src/lib.rs` 255–264: for each resolved language in
order, split the resolved text on `;` (dropping a trailing empty segment)
and push one keyword element per segment at the end of the children. -/
def appendKeywordLoop (children : List XNode) :
    List (LangId × String) → List XNode
  | [] => children
  | (lang, values) :: rest =>
    appendKeywordLoop
      ((splitTerminatorSemi values).foldl
        (fun acc value => acc ++ [mkKeywordElem lang value]) children)
      rest

/-- `element.get_mut_child("keywords")` followed by the pushes onto its
children (`src/lib.rs` 252–264): rebuild the child list with the first
element of the given name (the name predicate ignores attributes) replaced
by itself with the keyword elements appended; `none` when no child
matches. -/
def pushOntoFirstNamed (tag : String) (trs : List (LangId × String)) :
    List XNode → Option (List XNode)
  | [] => none
  | child :: rest =>
    match child with
    | .elem n attrs cs =>
      if n = tag then some (.elem n attrs (appendKeywordLoop cs trs) :: rest)
      else
        match pushOntoFirstNamed tag trs rest with
        | none => none
        | some rest2 => some (.elem n attrs cs :: rest2)
    | .text s =>
      match pushOntoFirstNamed tag trs rest with
      | none => none
      | some rest2 => some (.text s :: rest2)

/-- The tree-level part of `App::expand_metainfo` (`src/lib.rs` 193–265):
expand the `name` anchor, then the `summary` anchor when a comment message
is set, then append keywords when a keywords message is set (its container
missing is fatal).  The root element is rebuilt around the new children. -/
def expandMetainfoTree (app : App) (ctx : Context) (rootName : String)
    (rootAttrs : List (String × String)) (rootChildren : List XNode) :
    Except String XNode :=
  match expandLocale ctx rootChildren "name" app.name with
  | .error e => .error e
  | .ok c1 =>
    match
      (match app.comment with
       | none => Except.ok c1
       | some cm => expandLocale ctx c1 "summary" cm) with
    | .error e => .error e
    | .ok c2 =>
      match app.keywords with
      | none => .ok (.elem rootName rootAttrs c2)
      | some kw =>
        match pushOntoFirstNamed "keywords" (fluentGet kw ctx) c2 with
        | none => .error "template is missing keywords"
        | some c3 => .ok (.elem rootName rootAttrs c3)

mutual
/-- Modelled from the spec: the external XML serializer ("serialize the
tree back to text"; the indentation it may add is whitespace-only and is
abstracted away).  Attributes are emitted as a space, the attribute name,
`=`, and the quoted value. -/
def serializeXNode : XNode → String
  | .text s => s
  | .elem n attrs cs =>
    "<" ++ n
      ++ attrs.foldl (fun acc kv => acc ++ " " ++ kv.1 ++ "=\x22" ++ kv.2 ++ "\x22") ""
      ++ ">" ++ serializeXNodes cs ++ "</" ++ n ++ ">"

/-- Serialization of a node list, in order. -/
def serializeXNodes : List XNode → String
  | [] => ""
  | c :: cs => serializeXNode c ++ serializeXNodes cs
end

/-- `App::expand_metainfo` (`src/lib.rs` 183–277): expand the tree,
serialize it, then post-process the text with the exact literal
substitution that rewrites every occurrence of a space followed by `lang=`
into the `xml:`-namespaced form. -/
def expandMetainfo (app : App) (ctx : Context) (rootName : String)
    (rootAttrs : List (String × String)) (rootChildren : List XNode) :
    Except String String :=
  match expandMetainfoTree app ctx rootName rootAttrs rootChildren with
  | .error e => .error e
  | .ok tree => .ok (replaceStr (serializeXNode tree) " lang=" " xml:lang=")

/-! ## Substring search on character lists (for statements about the
serialized output text) -/

/-- Containment of a pattern as a contiguous substring. -/
def hasSubstr : List Char → List Char → Bool
  | [], pat => pat.isEmpty
  | s@(_ :: rest), pat => pat.isPrefixOf s || hasSubstr rest pat

/-! ## Concrete fixtures: the spec's running example

A registry with languages `en` and `fr`, both resolving the title message
`app-name` (to `Hello` / `Bonjour`), plus degenerate registries used to
probe the error paths. -/

def enId : LangId := ⟨"en", none⟩

def frId : LangId := ⟨"fr", none⟩

/-- A message whose pattern formats cleanly to the given text. -/
def mkMsg (id text : String) : FluentMessage := ⟨id, some ⟨text, 0⟩⟩

def ctxEnFr : Context :=
  ⟨[(enId, ⟨[mkMsg "app-name" "Hello"]⟩), (frId, ⟨[mkMsg "app-name" "Bonjour"]⟩)]⟩

def appTitled : App := ⟨"app-name", none, none⟩

/-! ## Claim C1: which languages get an entry from message resolution -/

theorem fluentGetList_entry_iff (id : String) (lang : LangId)
    (l : List (LangId × FluentBundle)) :
    (∃ v, (lang, v) ∈ fluentGetList id l) ↔
      ∃ b, (lang, b) ∈ l ∧ ∃ msg pat,
        b.getMessage id = some msg ∧ msg.value = some pat := by
  induction l with
  | nil => simp [fluentGetList]
  | cons p rest ih =>
    obtain ⟨lg, bundle⟩ := p
    cases hm : bundle.getMessage id with
    | none =>
      simp only [fluentGetList, hm]
      rw [ih]
      constructor
      · rintro ⟨b, hb, hmsg⟩
        exact ⟨b, List.mem_cons_of_mem _ hb, hmsg⟩
      · rintro ⟨b, hb, msg, pat, hmsg, hval⟩
        rcases List.mem_cons.mp hb with hb | hb
        · cases hb
          rw [hm] at hmsg
          exact absurd hmsg (by simp)
        · exact ⟨b, hb, msg, pat, hmsg, hval⟩
    | some msg =>
      cases hv : msg.value with
      | none =>
        simp only [fluentGetList, hm, hv]
        rw [ih]
        constructor
        · rintro ⟨b, hb, hmsg⟩
          exact ⟨b, List.mem_cons_of_mem _ hb, hmsg⟩
        · rintro ⟨b, hb, msg2, pat, hmsg, hval⟩
          rcases List.mem_cons.mp hb with hb | hb
          · cases hb
            rw [hm] at hmsg
            obtain h3 : msg = msg2 := by injection hmsg
            rw [← h3, hv] at hval
            exact absurd hval (by simp)
          · exact ⟨b, hb, msg2, pat, hmsg, hval⟩
      | some pat =>
        simp only [fluentGetList, hm, hv]
        constructor
        · rintro ⟨v, hmem⟩
          rcases List.mem_cons.mp hmem with hmem | hmem
          · cases hmem
            exact ⟨bundle, List.mem_cons_self _ _, msg, pat, hm, hv⟩
          · obtain ⟨b, hb, hmsg⟩ := (ih).mp ⟨v, hmem⟩
            exact ⟨b, List.mem_cons_of_mem _ hb, hmsg⟩
        · rintro ⟨b, hb, msg2, pat2, hmsg, hval⟩
          rcases List.mem_cons.mp hb with hb | hb
          · cases hb
            exact ⟨(formatPattern pat).1, List.mem_cons_self _ _⟩
          · obtain ⟨v, hmem⟩ := (ih).mpr ⟨b, hb, msg2, pat2, hmsg, hval⟩
            exact ⟨v, List.mem_cons_of_mem _ hmem⟩

/-- Claim C1 (amended): the map returned by message resolution has an entry
for a language exactly when some bundle registered for that language has a
message with the requested identifier carrying a value pattern.  In
particular it never has an entry for a language whose catalog lacks the
message — but formatting errors do not remove an entry: the (possibly
degraded) formatted result is still recorded. -/
theorem fluentGet_entry_iff (ctx : Context) (id : String) (lang : LangId) :
    (∃ v, (lang, v) ∈ fluentGet id ctx) ↔
      ∃ b, (lang, b) ∈ ctx.lang_bundles ∧ ∃ msg pat,
        b.getMessage id = some msg ∧ msg.value = some pat :=
  fluentGetList_entry_iff id lang ctx.lang_bundles

/-- A registry whose single `en` catalog has message `m`, whose formatting
reports one error while producing the degraded text `degraded`. -/
def ctxFmtErr : Context := ⟨[(enId, ⟨[⟨"m", some ⟨"degraded", 1⟩⟩]⟩)]⟩

/-- Claim C1, counterexample: formatting of `m` for language `en` reports
one error, yet resolution still returns an entry for `en` (holding the
degraded result) — the language is not skipped as the claim states. -/
theorem fluentGet_keeps_entry_despite_format_errors :
    fluentGet "m" ctxFmtErr = [(enId, "degraded")] ∧
      (FluentBundle.getMessage ⟨[⟨"m", some ⟨"degraded", 1⟩⟩]⟩ "m").map
        (fun msg => msg.value.map FluentPattern.fmtErrors) = some (some 1) :=
  ⟨rfl, rfl⟩

/-! ## Claim C10: locale-qualified lines for unset fields pass through -/

/-- Claim C10: in desktop-entry expansion, an attribute line in the primary
section whose key is `Comment` or `Keywords` and which carries a bracket
locale parameter is not an error when the corresponding descriptor field is
unset: the line is re-emitted as pass-through, with no localized lines
appended and no error raised. -/
theorem expandAttr_unset_field_passthrough (app : App) (ctx : Context)
    (p : String) (vs : List String)
    (hc : app.comment = none) (hk : app.keywords = none) :
    expandAttr app ctx "Desktop Entry" (⟨"Comment", some p⟩, vs) =
      .ok (vs.map (fun v => OutLine.original (attrLineText ⟨"Comment", some p⟩ v))) ∧
    expandAttr app ctx "Desktop Entry" (⟨"Keywords", some p⟩, vs) =
      .ok (vs.map (fun v => OutLine.original (attrLineText ⟨"Keywords", some p⟩ v))) := by
  constructor
  · simp [expandAttr, fluentFor, hc]
  · simp [expandAttr, fluentFor, hk]

/-- Claim C10, witness: a concrete `Comment[en]` line under a descriptor
with no comment message passes through unmodified. -/
theorem expandAttr_unset_field_passthrough_witness :
    expandAttr appTitled ctxEnFr "Desktop Entry" (⟨"Comment", some "en"⟩, ["x"]) =
      .ok [OutLine.original (attrLineText ⟨"Comment", some "en"⟩ "x")] ∧
    expandAttr appTitled ctxEnFr "Desktop Entry" (⟨"Keywords", some "en"⟩, ["x"]) =
      .ok [OutLine.original (attrLineText ⟨"Keywords", some "en"⟩ "x")] :=
  expandAttr_unset_field_passthrough appTitled ctxEnFr "en" ["x"] rfl rfl

/-! ## Claim C2: removing the appended lines recovers the template -/

theorem stripInjected_append (a b : List OutLine) :
    stripInjected (a ++ b) = stripInjected a ++ stripInjected b := by
  unfold stripInjected
  exact List.filter_append a b

theorem stripInjected_originals (vs : List String) (g : String → String) :
    stripInjected (vs.map (fun v => OutLine.original (g v))) =
      vs.map (fun v => OutLine.original (g v)) := by
  unfold stripInjected
  refine List.filter_eq_self.mpr ?_
  intro a ha
  rcases List.mem_map.mp ha with ⟨v, hv, hva⟩
  rw [← hva]

theorem stripInjected_injecteds {α : Type} (ls : List α) (g : α → String) :
    stripInjected (ls.map (fun l => OutLine.injected (g l))) = [] := by
  unfold stripInjected
  refine List.filter_eq_nil_iff.mpr ?_
  intro a ha
  rcases List.mem_map.mp ha with ⟨v, hv, hva⟩
  rw [← hva]
  simp

theorem stripInjected_expandAttr (app : App) (ctx : Context) (sname : String)
    (a : AttrKey × List String) (out : List OutLine)
    (hok : expandAttr app ctx sname a = .ok out) :
    stripInjected out = a.2.map (fun v => OutLine.original (attrLineText a.1 v)) := by
  unfold expandAttr at hok
  cases h : fluentFor app sname a.1.key with
  | none =>
    rw [h] at hok
    obtain h2 : a.2.map (fun v => OutLine.original (attrLineText a.1 v)) = out := by
      injection hok
    rw [← h2]
    exact stripInjected_originals a.2 (attrLineText a.1)
  | some fl =>
    rw [h] at hok
    cases hp : a.1.par with
    | some p =>
      rw [hp] at hok
      exact absurd hok (by simp)
    | none =>
      rw [hp] at hok
      obtain h2 : a.2.map (fun v => OutLine.original (attrLineText a.1 v)) ++
          (fluentGet fl ctx).map (fun lv => OutLine.injected
            (a.1.key ++ "[" ++ langUnderscore lv.1 ++ "]=" ++ lv.2)) = out := by
        injection hok
      rw [← h2, stripInjected_append, stripInjected_originals,
        stripInjected_injecteds, List.append_nil]

theorem stripInjected_attrs_flatten (app : App) (ctx : Context) (sname : String) :
    ∀ (attrs : List (AttrKey × List String)) (bodies : List (List OutLine)),
      mapExcept (expandAttr app ctx sname) attrs = .ok bodies →
      stripInjected bodies.flatten =
        attrs.flatMap (fun a => a.2.map (fun v => OutLine.original (attrLineText a.1 v))) := by
  intro attrs
  induction attrs with
  | nil =>
    intro bodies hok
    obtain h2 : ([] : List (List OutLine)) = bodies := by injection hok
    rw [← h2]
    rfl
  | cons a rest ih =>
    intro bodies hok
    unfold mapExcept at hok
    cases hf : expandAttr app ctx sname a with
    | error e => rw [hf] at hok; exact absurd hok (by simp)
    | ok y =>
      rw [hf] at hok
      cases hr : mapExcept (expandAttr app ctx sname) rest with
      | error e => rw [hr] at hok; exact absurd hok (by simp)
      | ok ys =>
        rw [hr] at hok
        obtain h2 : y :: ys = bodies := by injection hok
        rw [← h2, List.flatten_cons, stripInjected_append,
          stripInjected_expandAttr app ctx sname a y hf, ih ys hr,
          List.flatMap_cons]

theorem stripInjected_expandSection (app : App) (ctx : Context) (sec : DSection)
    (out : List OutLine) (hok : expandSection app ctx sec = .ok out) :
    stripInjected out =
      OutLine.original ("[" ++ sec.name ++ "]") ::
        sec.attrs.flatMap (fun a => a.2.map (fun v => OutLine.original (attrLineText a.1 v))) := by
  unfold expandSection at hok
  cases hm : mapExcept (expandAttr app ctx sec.name) sec.attrs with
  | error e => rw [hm] at hok; exact absurd hok (by simp)
  | ok bodies =>
    rw [hm] at hok
    obtain h2 : OutLine.original ("[" ++ sec.name ++ "]") :: bodies.flatten = out := by
      injection hok
    rw [← h2]
    have h3 : stripInjected (OutLine.original ("[" ++ sec.name ++ "]") :: bodies.flatten) =
        OutLine.original ("[" ++ sec.name ++ "]") :: stripInjected bodies.flatten := by
      simp [stripInjected, List.filter]
    rw [h3, stripInjected_attrs_flatten app ctx sec.name sec.attrs bodies hm]

theorem stripInjected_sections_flatten (app : App) (ctx : Context) :
    ∀ (t : List DSection) (secs : List (List OutLine)),
      mapExcept (expandSection app ctx) t = .ok secs →
      stripInjected secs.flatten = renderLines t := by
  intro t
  induction t with
  | nil =>
    intro secs hok
    obtain h2 : ([] : List (List OutLine)) = secs := by injection hok
    rw [← h2]
    rfl
  | cons sec rest ih =>
    intro secs hok
    unfold mapExcept at hok
    cases hf : expandSection app ctx sec with
    | error e => rw [hf] at hok; exact absurd hok (by simp)
    | ok y =>
      rw [hf] at hok
      cases hr : mapExcept (expandSection app ctx) rest with
      | error e => rw [hr] at hok; exact absurd hok (by simp)
      | ok ys =>
        rw [hr] at hok
        obtain h2 : y :: ys = secs := by injection hok
        rw [← h2, List.flatten_cons, stripInjected_append,
          stripInjected_expandSection app ctx sec y hf, ih ys hr]
        simp [renderLines]

/-- Claim C2: whenever desktop-entry expansion succeeds, the output with
all appended localized lines removed consists of exactly the template's own
lines — every section header and every original attribute line, unchanged
and in original order — so the corresponding text is byte-identical to the
re-emitted input template. -/
theorem expandDesktop_strip_roundtrip (app : App) (ctx : Context)
    (t : List DSection) (out : List OutLine)
    (hok : expandDesktop app ctx t = .ok out) :
    stripInjected out = renderLines t ∧
      unlinesText (stripInjected out) = unlinesText (renderLines t) := by
  unfold expandDesktop at hok
  cases hm : mapExcept (expandSection app ctx) t with
  | error e => rw [hm] at hok; exact absurd hok (by simp)
  | ok secs =>
    rw [hm] at hok
    obtain h2 : secs.flatten = out := by injection hok
    have h3 := stripInjected_sections_flatten app ctx t secs hm
    rw [h2] at h3
    exact ⟨h3, by rw [h3]⟩

/-- Claim C2, witness: the spec's running example — expanding
`[Desktop Entry] Name=Default` under the `en`/`fr` registry and removing
the two appended lines recovers the template's lines. -/
theorem expandDesktop_strip_roundtrip_witness :
    expandDesktop appTitled ctxEnFr [⟨"Desktop Entry", [(⟨"Name", none⟩, ["Default"])]⟩] =
      .ok [.original "[Desktop Entry]", .original "Name=Default",
        .injected "Name[en]=Hello", .injected "Name[fr]=Bonjour"] ∧
    stripInjected [.original "[Desktop Entry]", .original "Name=Default",
        .injected "Name[en]=Hello", .injected "Name[fr]=Bonjour"] =
      renderLines [⟨"Desktop Entry", [(⟨"Name", none⟩, ["Default"])]⟩] :=
  ⟨rfl, (expandDesktop_strip_roundtrip appTitled ctxEnFr
    [⟨"Desktop Entry", [(⟨"Name", none⟩, ["Default"])]⟩] _ rfl).1⟩

/-! ## A canonical desktop-entry text reader

Modelled from the spec: the external freedesktop-entry parser reads
"INI-like sectioned key/value text" with `[Section]` header lines and
`Key=value` / `Key[param]=value` attribute lines.  It is used here to
state re-parsing facts about concrete expander output texts. -/

/-- Character-list splitting on a separator predicate. -/
def splitChars (sep : Char → Bool) : List Char → List (List Char)
  | [] => [[]]
  | x :: xs =>
    if sep x then [] :: splitChars sep xs
    else
      match splitChars sep xs with
      | [] => [[x]]
      | g :: gs => (x :: g) :: gs

/-- Rejoining with a separator character, the inverse of `splitChars`. -/
def joinSep (c : Char) : List (List Char) → List Char
  | [] => []
  | [g] => g
  | g :: gs => g ++ c :: joinSep c gs

/-- Option-propagating map. -/
def mapOptionList {α β : Type} (f : α → Option β) : List α → Option (List β)
  | [] => some []
  | x :: xs =>
    match f x with
    | none => none
    | some y =>
      match mapOptionList f xs with
      | none => none
      | some ys => some (y :: ys)

/-- Reads `Key` or `Key[param]` from the left-hand side of an attribute
line. -/
def parseAttrKeyChars (l : List Char) : Option AttrKey :=
  match splitChars (fun ch => ch == '[') l with
  | [k] =>
    if !k.isEmpty && !(k.contains ']') then some ⟨⟨k⟩, none⟩ else none
  | [k, pr] =>
    if !k.isEmpty && !(k.contains ']') && (pr.getLast? == some ']')
        && !(pr.dropLast.contains ']') then
      some ⟨⟨k⟩, some ⟨pr.dropLast⟩⟩
    else none
  | _ => none

/-- Reads one line as either a `[Section]` header or an attribute. -/
def parseLineToken (l : List Char) : Option (Sum String (AttrKey × String)) :=
  match l with
  | [] => none
  | '[' :: rest =>
    if (rest.getLast? == some ']') && !(rest.dropLast.contains ']') then
      some (.inl ⟨rest.dropLast⟩)
    else none
  | x :: xs =>
    match splitChars (fun ch => ch == '=') (x :: xs) with
    | k :: v :: vrest =>
      match parseAttrKeyChars k with
      | none => none
      | some ak => some (.inr (ak, ⟨joinSep '=' (v :: vrest)⟩))
    | _ => none

/-- Groups a header-led token stream into sections. -/
def groupSectionsGo (cur : DSection) :
    List (Sum String (AttrKey × String)) → List DSection
  | [] => [cur]
  | .inl name :: rest => cur :: groupSectionsGo ⟨name, []⟩ rest
  | .inr a :: rest =>
    groupSectionsGo ⟨cur.name, cur.attrs ++ [(a.1, [a.2])]⟩ rest

/-- Reads a canonical newline-terminated desktop-entry text into its
sections; lines before the first header are rejected. -/
def parseDesktop (s : String) : Option (List DSection) :=
  match splitChars (fun ch => ch == '\x0a') s.data with
  | [] => none
  | gs =>
    if gs.getLast? == some [] then
      match mapOptionList parseLineToken gs.dropLast with
      | none => none
      | some [] => some []
      | some (.inl name :: toks) => some (groupSectionsGo ⟨name, []⟩ toks)
      | some (.inr _ :: _) => none
    else none

/-! ## Claim C5: locale-qualified recognized keys are a hard failure -/

theorem mapExcept_not_ok_of_mem {α β : Type} (f : α → Except String β)
    (l : List α) (x : α) (hx : x ∈ l) (herr : ∀ y, f x ≠ .ok y)
    (ys : List β) : mapExcept f l ≠ .ok ys := by
  induction l generalizing ys with
  | nil => cases hx
  | cons a rest ih =>
    intro hok
    unfold mapExcept at hok
    cases hf : f a with
    | error e => rw [hf] at hok; exact absurd hok (by simp)
    | ok y =>
      rw [hf] at hok
      cases hr : mapExcept f rest with
      | error e => rw [hr] at hok; exact absurd hok (by simp)
      | ok ys0 =>
        rcases List.mem_cons.mp hx with hx | hx
        · rw [← hx] at hf
          exact herr y hf
        · exact ih hx ys0 hr

def demoTemplate : List DSection := [⟨"Desktop Entry", [(⟨"Name", none⟩, ["Default"])]⟩]

def demoOut : List OutLine :=
  [.original "[Desktop Entry]", .original "Name=Default",
    .injected "Name[en]=Hello", .injected "Name[fr]=Bonjour"]

/-- The sections read back from the first run's output text: the original
unlocalized line plus the two appended locale-qualified lines. -/
def demoReparsed : List DSection :=
  [⟨"Desktop Entry", [(⟨"Name", none⟩, ["Default"]),
    (⟨"Name", some "en"⟩, ["Hello"]), (⟨"Name", some "fr"⟩, ["Bonjour"])]⟩]

/-- Claim C5: an attribute line of the primary section whose key maps to a
populated descriptor field and which carries a bracket locale parameter
makes desktop-entry expansion fail with the double-localization error; in
particular, re-running the expander on its own output (whose text parses
back to sections now containing `Name[en]`/`Name[fr]` lines) fails. -/
theorem expandDesktop_double_localization (app : App) (ctx : Context)
    (t : List DSection)
    (h : ∃ sec, sec ∈ t ∧ sec.name = "Desktop Entry" ∧ ∃ a, a ∈ sec.attrs ∧
      (fluentFor app "Desktop Entry" a.1.key).isSome ∧ a.1.par.isSome) :
    (∃ msg, expandDesktop app ctx t = .error msg) ∧
      (expandDesktop appTitled ctxEnFr demoTemplate = .ok demoOut ∧
        unlinesText demoOut =
          "[Desktop Entry]\x0aName=Default\x0aName[en]=Hello\x0aName[fr]=Bonjour\x0a" ∧
        parseDesktop (unlinesText demoOut) = some demoReparsed ∧
        ∃ msg2, expandDesktop appTitled ctxEnFr demoReparsed = .error msg2) := by
  refine ⟨?_, rfl, rfl, rfl, "template has localized Name[en]", rfl⟩
  obtain ⟨sec, hsec, hname, a, ha, hfl, hpar⟩ := h
  have hattr : ∀ y, expandAttr app ctx sec.name a ≠ .ok y := by
    rw [hname]
    intro y hy
    unfold expandAttr at hy
    obtain ⟨fl, hfl2⟩ := Option.isSome_iff_exists.mp hfl
    rw [hfl2] at hy
    obtain ⟨p, hp⟩ := Option.isSome_iff_exists.mp hpar
    rw [hp] at hy
    exact absurd hy (by simp)
  have hsection : ∀ y, expandSection app ctx sec ≠ .ok y := by
    intro y hy
    unfold expandSection at hy
    cases hm : mapExcept (expandAttr app ctx sec.name) sec.attrs with
    | error e => rw [hm] at hy; exact absurd hy (by simp)
    | ok bodies => exact mapExcept_not_ok_of_mem _ _ a ha hattr bodies hm
  cases hm : mapExcept (expandSection app ctx) t with
  | error e => exact ⟨e, by unfold expandDesktop; rw [hm]⟩
  | ok secs => exact absurd hm (mapExcept_not_ok_of_mem _ t sec hsec hsection secs)

/-- Claim C5, witness: the reparsed output above satisfies the premise, and
re-expansion indeed fails. -/
theorem expandDesktop_double_localization_witness :
    (∃ sec, sec ∈ demoReparsed ∧ sec.name = "Desktop Entry" ∧ ∃ a, a ∈ sec.attrs ∧
      (fluentFor appTitled "Desktop Entry" a.1.key).isSome ∧ a.1.par.isSome) ∧
    (∃ msg, expandDesktop appTitled ctxEnFr demoReparsed = .error msg) :=
  ⟨by decide,
    (expandDesktop_double_localization appTitled ctxEnFr demoReparsed (by decide)).1⟩

/-! ## Claim C4: precedence of the metainfo anchor scan -/

/-- An element of the given name carrying no attributes (an anchor
candidate). -/
def isCleanMatch (tag : String) : XNode → Bool
  | .elem n attrs _ => n == tag && attrs.isEmpty
  | .text _ => false

/-- An element of the given name carrying at least one attribute. -/
def isAttrMatch (tag : String) : XNode → Bool
  | .elem n attrs _ => n == tag && !attrs.isEmpty
  | .text _ => false

theorem scanGo_step_skip (tag : String) (c : XNode) (rest : List XNode)
    (i : Nat) (acc : Option Nat)
    (hattr : isAttrMatch tag c = false) (hclean : isCleanMatch tag c = false) :
    scanAnchorGo tag (c :: rest) i acc = scanAnchorGo tag rest (i + 1) acc := by
  cases c with
  | text s => rfl
  | elem n attrs cs =>
    by_cases hn : n = tag
    · exfalso
      simp [isAttrMatch, hn] at hattr
      simp [isCleanMatch, hn] at hclean
      exact hclean hattr
    · simp [scanAnchorGo, hn]

theorem scanGo_step_attr (tag : String) (c : XNode) (rest : List XNode)
    (i : Nat) (acc : Option Nat) (hattr : isAttrMatch tag c = true) :
    scanAnchorGo tag (c :: rest) i acc =
      .error ("template has localized tag " ++ tag) := by
  cases c with
  | text s => exact absurd hattr (by simp [isAttrMatch])
  | elem n attrs cs =>
    rw [isAttrMatch] at hattr
    have hn : n = tag := by
      cases h : (n == tag) with
      | true => exact eq_of_beq h
      | false => rw [h] at hattr; exact absurd hattr (by simp)
    have ha : attrs ≠ [] := by
      intro hemp
      rw [hemp] at hattr
      simp at hattr
    simp [scanAnchorGo, hn, ha]

theorem scanGo_step_clean_none (tag : String) (c : XNode) (rest : List XNode)
    (i : Nat) (hclean : isCleanMatch tag c = true) :
    scanAnchorGo tag (c :: rest) i none = scanAnchorGo tag rest (i + 1) (some i) := by
  cases c with
  | text s => exact absurd hclean (by simp [isCleanMatch])
  | elem n attrs cs =>
    rw [isCleanMatch] at hclean
    have hn : n = tag := by
      cases h : (n == tag) with
      | true => exact eq_of_beq h
      | false => rw [h] at hclean; exact absurd hclean (by simp)
    have ha : attrs = [] := by
      cases h : attrs.isEmpty with
      | true => exact List.isEmpty_iff.mp h
      | false => rw [h] at hclean; simp at hclean
    simp [scanAnchorGo, hn, ha]

theorem scanGo_step_clean_some (tag : String) (c : XNode) (rest : List XNode)
    (i j : Nat) (hclean : isCleanMatch tag c = true) :
    scanAnchorGo tag (c :: rest) i (some j) =
      .error ("template has redefined tag " ++ tag) := by
  cases c with
  | text s => exact absurd hclean (by simp [isCleanMatch])
  | elem n attrs cs =>
    rw [isCleanMatch] at hclean
    have hn : n = tag := by
      cases h : (n == tag) with
      | true => exact eq_of_beq h
      | false => rw [h] at hclean; exact absurd hclean (by simp)
    have ha : attrs = [] := by
      cases h : attrs.isEmpty with
      | true => exact List.isEmpty_iff.mp h
      | false => rw [h] at hclean; simp at hclean
    simp [scanAnchorGo, hn, ha]

theorem scanGo_skip (tag : String) :
    ∀ (l : List XNode), (∀ y ∈ l, isAttrMatch tag y = false) →
      l.countP (isCleanMatch tag) = 0 →
      ∀ (i : Nat) (acc : Option Nat), scanAnchorGo tag l i acc = .ok acc := by
  intro l
  induction l with
  | nil => intro h1 h2 i acc; rfl
  | cons c rest ih =>
    intro h1 h2 i acc
    rw [List.countP_cons] at h2
    have hcf : isCleanMatch tag c = false := by
      cases h : isCleanMatch tag c with
      | false => rfl
      | true => rw [h] at h2; simp at h2
    rw [hcf] at h2
    simp only [if_neg (by simp : ¬ (false = true)), Nat.add_zero] at h2
    rw [scanGo_step_skip tag c rest i acc (h1 c (List.mem_cons_self _ _)) hcf]
    exact ih (fun y hy => h1 y (List.mem_cons_of_mem _ hy)) h2 (i + 1) acc

theorem scanGo_redefined (tag : String) :
    ∀ (l : List XNode) (i : Nat) (acc : Option Nat),
      (∀ y ∈ l, isAttrMatch tag y = false) →
      2 ≤ l.countP (isCleanMatch tag) + (if acc.isSome then 1 else 0) →
      scanAnchorGo tag l i acc = .error ("template has redefined tag " ++ tag) := by
  intro l
  induction l with
  | nil =>
    intro i acc h1 h2
    rw [List.countP_nil] at h2
    cases acc <;> simp at h2
  | cons c rest ih =>
    intro i acc h1 h2
    have h1r : ∀ y ∈ rest, isAttrMatch tag y = false :=
      fun y hy => h1 y (List.mem_cons_of_mem _ hy)
    rw [List.countP_cons] at h2
    cases hc : isCleanMatch tag c with
    | false =>
      rw [hc] at h2
      simp only [if_neg (by simp : ¬ (false = true)), Nat.add_zero] at h2
      rw [scanGo_step_skip tag c rest i acc (h1 c (List.mem_cons_self _ _)) hc]
      exact ih (i + 1) acc h1r h2
    | true =>
      cases acc with
      | some j => exact scanGo_step_clean_some tag c rest i j hc
      | none =>
        rw [hc] at h2
        simp only [Option.isSome_none] at h2
        rw [scanGo_step_clean_none tag c rest i hc]
        refine ih (i + 1) (some i) h1r ?_
        rw [Option.isSome_some, if_pos rfl]
        rw [if_pos trivial] at h2
        rw [if_neg (by simp : ¬ (false = true))] at h2
        omega

theorem scanGo_single (tag : String) :
    ∀ (l : List XNode) (i : Nat), (∀ y ∈ l, isAttrMatch tag y = false) →
      l.countP (isCleanMatch tag) = 1 →
      ∃ p x, scanAnchorGo tag l i none = .ok (some (i + p)) ∧
        l[p]? = some x ∧ isCleanMatch tag x = true := by
  intro l
  induction l with
  | nil => intro i h1 h2; rw [List.countP_nil] at h2; exact absurd h2 (by simp)
  | cons c rest ih =>
    intro i h1 h2
    have h1r : ∀ y ∈ rest, isAttrMatch tag y = false :=
      fun y hy => h1 y (List.mem_cons_of_mem _ hy)
    rw [List.countP_cons] at h2
    cases hc : isCleanMatch tag c with
    | true =>
      rw [hc] at h2
      rw [if_pos rfl] at h2
      have h2r : rest.countP (isCleanMatch tag) = 0 := by omega
      refine ⟨0, c, ?_, by simp, hc⟩
      rw [Nat.add_zero, scanGo_step_clean_none tag c rest i hc]
      exact scanGo_skip tag rest h1r h2r (i + 1) (some i)
    | false =>
      rw [hc] at h2
      simp only [if_neg (by simp : ¬ (false = true)), Nat.add_zero] at h2
      obtain ⟨p, x, hgo, hget, hcx⟩ := ih (i + 1) h1r h2
      refine ⟨p + 1, x, ?_, ?_, hcx⟩
      · rw [scanGo_step_skip tag c rest i none (h1 c (List.mem_cons_self _ _)) hc]
        rw [hgo]
        have : i + 1 + p = i + (p + 1) := by omega
        rw [this]
      · rw [List.getElem?_cons_succ]
        exact hget

theorem scanGo_localized (tag : String) :
    ∀ (pre : List XNode) (x : XNode) (post : List XNode) (i : Nat) (acc : Option Nat),
      isAttrMatch tag x = true →
      (∀ y ∈ pre, isAttrMatch tag y = false) →
      pre.countP (isCleanMatch tag) + (if acc.isSome then 1 else 0) ≤ 1 →
      scanAnchorGo tag (pre ++ x :: post) i acc =
        .error ("template has localized tag " ++ tag) := by
  intro pre
  induction pre with
  | nil =>
    intro x post i acc hx h1 h2
    rw [List.nil_append]
    exact scanGo_step_attr tag x post i acc hx
  | cons c pre2 ih =>
    intro x post i acc hx h1 h2
    have h1r : ∀ y ∈ pre2, isAttrMatch tag y = false :=
      fun y hy => h1 y (List.mem_cons_of_mem _ hy)
    rw [List.countP_cons] at h2
    rw [List.cons_append]
    cases hc : isCleanMatch tag c with
    | false =>
      rw [hc] at h2
      simp only [if_neg (by simp : ¬ (false = true)), Nat.add_zero] at h2
      rw [scanGo_step_skip tag c _ i acc (h1 c (List.mem_cons_self _ _)) hc]
      exact ih x post (i + 1) acc hx h1r h2
    | true =>
      rw [hc] at h2
      simp only [if_pos rfl] at h2
      cases acc with
      | some j =>
        simp at h2
      | none =>
        rw [scanGo_step_clean_none tag c _ i hc]
        refine ih x post (i + 1) (some i) hx h1r ?_
        rw [Option.isSome_some, if_pos rfl]
        rw [Option.isSome_none, if_neg (by simp : ¬ (false = true))] at h2
        rw [if_pos trivial] at h2
        omega

theorem scanGo_bound (tag : String) :
    ∀ (l : List XNode) (i : Nat) (acc : Option Nat) (j : Nat),
      scanAnchorGo tag l i acc = .ok (some j) →
      acc = some j ∨ (i ≤ j ∧ j < i + l.length) := by
  intro l
  induction l with
  | nil =>
    intro i acc j h
    obtain h2 : acc = some j := by injection h
    exact Or.inl h2
  | cons c rest ih =>
    intro i acc j h
    cases c with
    | text s =>
      simp only [scanAnchorGo] at h
      rcases ih (i + 1) acc j h with h2 | h2
      · exact Or.inl h2
      · refine Or.inr ⟨by omega, ?_⟩
        rw [List.length_cons]
        omega
    | elem n attrs cs =>
      by_cases hn : n = tag
      · by_cases ha : attrs = []
        · cases acc with
          | some j2 =>
            simp [scanAnchorGo, hn, ha] at h
          | none =>
            simp only [scanAnchorGo, if_pos hn, ha] at h
            simp only [ne_eq, not_true_eq_false, if_false, Option.isSome_none,
              Bool.false_eq_true, if_false] at h
            rcases ih (i + 1) (some i) j h with h2 | h2
            · obtain h3 : i = j := by injection h2
              refine Or.inr ⟨by omega, ?_⟩
              rw [List.length_cons]
              omega
            · refine Or.inr ⟨by omega, ?_⟩
              rw [List.length_cons]
              omega
        · simp [scanAnchorGo, hn, ha] at h
      · simp only [scanAnchorGo, if_neg hn] at h
        rcases ih (i + 1) acc j h with h2 | h2
        · exact Or.inl h2
        · refine Or.inr ⟨by omega, ?_⟩
          rw [List.length_cons]
          omega

/-- Claim C4: the metainfo anchor scan proceeds over the children in
sequence order: reaching an element of the tag name that carries attributes
raises the "has localized tag" error (even when an attribute-free match was
already recorded — attribute checking takes priority over duplicate
detection at each element); with no attributed match, a second
attribute-free match raises the "has redefined tag" error; with exactly one
attribute-free match the scan accepts it (returning its index); and with no
match at all the expansion raises the "missing tag" error. -/
theorem scanAnchor_precedence (tag : String) :
    (∀ (pre : List XNode) (x : XNode) (post : List XNode),
      isAttrMatch tag x = true →
      (∀ y ∈ pre, isAttrMatch tag y = false) →
      pre.countP (isCleanMatch tag) ≤ 1 →
      scanAnchor tag (pre ++ x :: post) =
        .error ("template has localized tag " ++ tag)) ∧
    (∀ children : List XNode,
      (∀ y ∈ children, isAttrMatch tag y = false) →
      2 ≤ children.countP (isCleanMatch tag) →
      scanAnchor tag children = .error ("template has redefined tag " ++ tag)) ∧
    (∀ children : List XNode,
      (∀ y ∈ children, isAttrMatch tag y = false) →
      children.countP (isCleanMatch tag) = 1 →
      ∃ p x, scanAnchor tag children = .ok (some p) ∧ children[p]? = some x ∧
        isCleanMatch tag x = true) ∧
    (∀ (children : List XNode) (ctx : Context) (fl : String),
      (∀ y ∈ children, isAttrMatch tag y = false) →
      children.countP (isCleanMatch tag) = 0 →
      expandLocale ctx children tag fl =
        .error ("template is missing tag " ++ tag)) := by
  refine ⟨?_, ?_, ?_, ?_⟩
  · intro pre x post hx hpre hcount
    refine scanGo_localized tag pre x post 0 none hx hpre ?_
    rw [Option.isSome_none, if_neg (by simp : ¬ (false = true))]
    omega
  · intro children h1 h2
    refine scanGo_redefined tag children 0 none h1 ?_
    rw [Option.isSome_none, if_neg (by simp : ¬ (false = true))]
    omega
  · intro children h1 h2
    obtain ⟨p, x, hgo, hget, hcx⟩ := scanGo_single tag children 0 h1 h2
    rw [Nat.zero_add] at hgo
    exact ⟨p, x, hgo, hget, hcx⟩
  · intro children ctx fl h1 h2
    have h0 : scanAnchor tag children = .ok none :=
      scanGo_skip tag children h1 h2 0 none
    unfold expandLocale
    rw [h0]

def nameDefault : XNode := .elem "name" [] [.text "Default"]

def nameLocalized : XNode := .elem "name" [("xml:lang", "en")] [.text "Hello"]

/-- Claim C4, witness: each branch of the precedence at a concrete child
list — a clean `name` followed by an attributed `name` gives the localized
error (priority over the duplicate error), two clean `name`s give the
redefined error, one clean `name` is accepted at its index, and none gives
the missing error. -/
theorem scanAnchor_precedence_witness :
    scanAnchor "name" [nameDefault, nameLocalized] =
      .error ("template has localized tag " ++ "name") ∧
    scanAnchor "name" [nameDefault, nameDefault] =
      .error ("template has redefined tag " ++ "name") ∧
    (∃ p x, scanAnchor "name" [XNode.text "t", nameDefault] = .ok (some p) ∧
      ([XNode.text "t", nameDefault] : List XNode)[p]? = some x ∧
      isCleanMatch "name" x = true) ∧
    expandLocale ctxEnFr [XNode.text "t"] "name" "app-name" =
      .error ("template is missing tag " ++ "name") :=
  ⟨(scanAnchor_precedence "name").1 [nameDefault] nameLocalized []
      (by decide) (by decide) (by decide),
    (scanAnchor_precedence "name").2.1 [nameDefault, nameDefault]
      (by decide) (by decide),
    (scanAnchor_precedence "name").2.2.1 [XNode.text "t", nameDefault]
      (by decide) (by decide),
    (scanAnchor_precedence "name").2.2.2 [XNode.text "t"] ctxEnFr "app-name"
      (by decide) (by decide)⟩

/-! ## Claim C6: localized siblings form a contiguous run after the anchor -/

theorem insertLoop_run (tag : String) :
    ∀ (trs : List (LangId × String)) (children : List XNode) (idx : Nat),
      idx < children.length →
      insertLoop tag children idx trs =
        children.take (idx + 1) ++
          trs.map (fun lv => mkLangElem tag lv.1 lv.2) ++
          children.drop (idx + 1) := by
  intro trs
  induction trs with
  | nil =>
    intro children idx h
    simp [insertLoop, List.take_append_drop]
  | cons lv rest ih =>
    intro children idx h
    obtain ⟨lang, value⟩ := lv
    simp only [insertLoop]
    have hlen : idx + 1 < (insertAt (idx + 1) (mkLangElem tag lang value) children).length := by
      unfold insertAt
      rw [List.length_append, List.length_take, List.length_cons, List.length_drop]
      omega
    rw [ih _ (idx + 1) hlen]
    unfold insertAt
    have hA : (children.take (idx + 1)).length = idx + 1 := by
      rw [List.length_take]
      omega
    have htake : (children.take (idx + 1) ++
        mkLangElem tag lang value :: children.drop (idx + 1)).take (idx + 1 + 1) =
        children.take (idx + 1) ++ [mkLangElem tag lang value] := by
      rw [List.take_append_eq_append_take, hA]
      have h1 : (children.take (idx + 1)).take (idx + 1 + 1) = children.take (idx + 1) := by
        refine List.take_of_length_le ?_
        rw [hA]
        omega
      have h2 : idx + 1 + 1 - (idx + 1) = 1 := by omega
      rw [h1, h2]
      rfl
    have hdrop : (children.take (idx + 1) ++
        mkLangElem tag lang value :: children.drop (idx + 1)).drop (idx + 1 + 1) =
        children.drop (idx + 1) := by
      rw [List.drop_append_eq_append_drop, hA]
      have h1 : (children.take (idx + 1)).drop (idx + 1 + 1) = [] := by
        refine List.drop_eq_nil_of_le ?_
        rw [hA]
        omega
      have h2 : idx + 1 + 1 - (idx + 1) = 1 := by omega
      rw [h1, h2]
      rfl
    rw [htake, hdrop]
    simp [List.append_assoc]

theorem fluentGetList_keys_sublist (id : String) :
    ∀ l : List (LangId × FluentBundle),
      ((fluentGetList id l).map Prod.fst).Sublist (l.map Prod.fst) := by
  intro l
  induction l with
  | nil => simp [fluentGetList]
  | cons p rest ih =>
    obtain ⟨lg, bundle⟩ := p
    cases hm : bundle.getMessage id with
    | none =>
      simp only [fluentGetList, hm, List.map_cons]
      exact ih.cons _
    | some msg =>
      cases hv : msg.value with
      | none =>
        simp only [fluentGetList, hm, hv, List.map_cons]
        exact ih.cons _
      | some pat =>
        simp only [fluentGetList, hm, hv, List.map_cons]
        exact ih.cons₂ _

theorem fluentGet_keys_pairwise (ctx : Context) (id : String)
    (h : SortedKeys ctx.lang_bundles) :
    ((fluentGet id ctx).map Prod.fst).Pairwise (fun a b => langLt a b = true) := by
  have h2 : (ctx.lang_bundles.map Prod.fst).Pairwise (fun a b => langLt a b = true) := by
    rw [List.pairwise_map]
    exact h
  exact h2.sublist (fluentGetList_keys_sublist id ctx.lang_bundles)

/-- Claim C6: when metainfo anchor expansion succeeds, the new child list is
the old one with, immediately after the anchor element, one new element per
resolved language — same tag name, a `lang` attribute holding the
underscored Language Tag, a single text child holding the resolved value —
inserted as one contiguous run in resolution order; and for a sorted
registry that run is in ascending Language Tag order. -/
theorem expandLocale_inserts_run (ctx : Context) (children : List XNode)
    (tag fl : String) (nc : List XNode)
    (hok : expandLocale ctx children tag fl = .ok nc) :
    ∃ idx, scanAnchor tag children = .ok (some idx) ∧ idx < children.length ∧
      nc = children.take (idx + 1) ++
        (fluentGet fl ctx).map
          (fun lv => XNode.elem tag [("lang", langUnderscore lv.1)] [XNode.text lv.2]) ++
        children.drop (idx + 1) ∧
      (SortedKeys ctx.lang_bundles →
        ((fluentGet fl ctx).map Prod.fst).Pairwise (fun a b => langLt a b = true)) := by
  unfold expandLocale at hok
  cases hs : scanAnchor tag children with
  | error e => rw [hs] at hok; exact absurd hok (by simp)
  | ok idxOpt =>
    cases idxOpt with
    | none => rw [hs] at hok; exact absurd hok (by simp)
    | some idx =>
      rw [hs] at hok
      obtain h2 : insertLoop tag children idx (fluentGet fl ctx) = nc := by injection hok
      have hb : idx < children.length := by
        rcases scanGo_bound tag children 0 none idx hs with h3 | h3
        · exact absurd h3 (by simp)
        · omega
      refine ⟨idx, rfl, hb, ?_, fun hsorted => fluentGet_keys_pairwise ctx fl hsorted⟩
      rw [← h2, insertLoop_run tag (fluentGet fl ctx) children idx hb]
      simp [mkLangElem]

/-- Claim C6, witness: the spec's example — expanding `<name>Default</name>`
under the `en`/`fr` registry puts the `en` then `fr` variants immediately
after the anchor, in that order. -/
theorem expandLocale_inserts_run_witness :
    expandLocale ctxEnFr [nameDefault] "name" "app-name" =
      .ok [nameDefault,
        XNode.elem "name" [("lang", "en")] [XNode.text "Hello"],
        XNode.elem "name" [("lang", "fr")] [XNode.text "Bonjour"]] ∧
    (∃ idx, scanAnchor "name" [nameDefault] = .ok (some idx) ∧
      idx < ([nameDefault] : List XNode).length ∧
      [nameDefault,
        XNode.elem "name" [("lang", "en")] [XNode.text "Hello"],
        XNode.elem "name" [("lang", "fr")] [XNode.text "Bonjour"]] =
        ([nameDefault] : List XNode).take (idx + 1) ++
          (fluentGet "app-name" ctxEnFr).map
            (fun lv => XNode.elem "name" [("lang", langUnderscore lv.1)] [XNode.text lv.2]) ++
          ([nameDefault] : List XNode).drop (idx + 1) ∧
      (SortedKeys ctxEnFr.lang_bundles →
        ((fluentGet "app-name" ctxEnFr).map Prod.fst).Pairwise
          (fun a b => langLt a b = true))) :=
  ⟨rfl, expandLocale_inserts_run ctxEnFr [nameDefault] "name" "app-name" _ rfl⟩

/-! ## Claim C7: keyword splitting and appending -/

/-- An element with the given name, regardless of attributes — the predicate
`get_mut_child` matches with. -/
def isNamedElem (tag : String) : XNode → Bool
  | .elem n _ _ => n == tag
  | .text _ => false

theorem foldl_push_map {α : Type} (f : α → XNode) :
    ∀ (l : List α) (acc : List XNode),
      l.foldl (fun a v => a ++ [f v]) acc = acc ++ l.map f := by
  intro l
  induction l with
  | nil => intro acc; simp
  | cons x rest ih =>
    intro acc
    rw [List.foldl_cons, ih (acc ++ [f x]), List.map_cons, List.append_assoc]
    rfl

theorem appendKeywordLoop_flatMap :
    ∀ (trs : List (LangId × String)) (children : List XNode),
      appendKeywordLoop children trs =
        children ++ trs.flatMap
          (fun lv => (splitTerminatorSemi lv.2).map (mkKeywordElem lv.1)) := by
  intro trs
  induction trs with
  | nil => intro children; simp [appendKeywordLoop]
  | cons lv rest ih =>
    intro children
    obtain ⟨lang, values⟩ := lv
    simp only [appendKeywordLoop]
    rw [foldl_push_map (mkKeywordElem lang) (splitTerminatorSemi values) children]
    rw [ih]
    rw [List.flatMap_cons, List.append_assoc]

theorem pushOntoFirstNamed_spec (tag : String) (trs : List (LangId × String)) :
    ∀ (children nc : List XNode),
      pushOntoFirstNamed tag trs children = some nc →
      ∃ pre n attrs cs post,
        children = pre ++ XNode.elem n attrs cs :: post ∧ n = tag ∧
        (∀ y ∈ pre, isNamedElem tag y = false) ∧
        nc = pre ++ XNode.elem n attrs
          (cs ++ trs.flatMap
            (fun lv => (splitTerminatorSemi lv.2).map (mkKeywordElem lv.1))) :: post := by
  intro children
  induction children with
  | nil => intro nc h; exact absurd h (by simp [pushOntoFirstNamed])
  | cons child rest ih =>
    intro nc h
    cases child with
    | elem n attrs cs =>
      by_cases hn : n = tag
      · simp only [pushOntoFirstNamed, if_pos hn] at h
        obtain h2 : XNode.elem n attrs (appendKeywordLoop cs trs) :: rest = nc := by
          injection h
        refine ⟨[], n, attrs, cs, rest, by simp, hn, by simp, ?_⟩
        rw [← h2, appendKeywordLoop_flatMap trs cs]
        simp
      · simp only [pushOntoFirstNamed, if_neg hn] at h
        cases hr : pushOntoFirstNamed tag trs rest with
        | none => rw [hr] at h; exact absurd h (by simp)
        | some rest2 =>
          rw [hr] at h
          obtain h2 : XNode.elem n attrs cs :: rest2 = nc := by injection h
          obtain ⟨pre, n2, attrs2, cs2, post, hch, hn2, hpre, hnc⟩ := ih rest2 hr
          refine ⟨XNode.elem n attrs cs :: pre, n2, attrs2, cs2, post, ?_, hn2, ?_, ?_⟩
          · rw [List.cons_append, ← hch]
          · intro y hy
            rcases List.mem_cons.mp hy with hy | hy
            · rw [hy, isNamedElem]
              simp [hn]
            · exact hpre y hy
          · rw [← h2, hnc, List.cons_append]
    | text s =>
      simp only [pushOntoFirstNamed] at h
      cases hr : pushOntoFirstNamed tag trs rest with
      | none => rw [hr] at h; exact absurd h (by simp)
      | some rest2 =>
        rw [hr] at h
        obtain h2 : XNode.text s :: rest2 = nc := by injection h
        obtain ⟨pre, n2, attrs2, cs2, post, hch, hn2, hpre, hnc⟩ := ih rest2 hr
        refine ⟨XNode.text s :: pre, n2, attrs2, cs2, post, ?_, hn2, ?_, ?_⟩
        · rw [List.cons_append, ← hch]
        · intro y hy
          rcases List.mem_cons.mp hy with hy | hy
          · rw [hy, isNamedElem]
          · exact hpre y hy
        · rw [← h2, hnc, List.cons_append]

/-- Claim C7: keyword expansion finds the first element named `keywords`
(skipping earlier non-matching children), and appends at the end of its
existing children, grouped language by language in resolution order, one
`keyword` element per `;`-segment of the resolved text — where the split
discards a trailing empty segment, so `"alpha;beta;"` contributes exactly
the two segments `alpha` and `beta`. -/
theorem keywords_append_spec (tag : String) (trs : List (LangId × String))
    (children nc : List XNode)
    (h : pushOntoFirstNamed tag trs children = some nc) :
    (splitTerminatorSemi "alpha;beta;" = ["alpha", "beta"]) ∧
      ∃ pre n attrs cs post,
        children = pre ++ XNode.elem n attrs cs :: post ∧ n = tag ∧
        (∀ y ∈ pre, isNamedElem tag y = false) ∧
        nc = pre ++ XNode.elem n attrs
          (cs ++ trs.flatMap
            (fun lv => (splitTerminatorSemi lv.2).map
              (fun seg => XNode.elem "keyword"
                [("lang", langUnderscore lv.1)] [XNode.text seg]))) :: post := by
  refine ⟨rfl, ?_⟩
  obtain ⟨pre, n, attrs, cs, post, hch, hn, hpre, hnc⟩ :=
    pushOntoFirstNamed_spec tag trs children nc h
  exact ⟨pre, n, attrs, cs, post, hch, hn, hpre, hnc⟩

/-- Claim C7, witness: one `keywords` container and the keywords string
`alpha;beta;` for `en` yield exactly two appended `keyword` children. -/
theorem keywords_append_spec_witness :
    pushOntoFirstNamed "keywords" [(enId, "alpha;beta;")] [XNode.elem "keywords" [] []] =
      some [XNode.elem "keywords" []
        [XNode.elem "keyword" [("lang", "en")] [XNode.text "alpha"],
         XNode.elem "keyword" [("lang", "en")] [XNode.text "beta"]]] ∧
    (splitTerminatorSemi "alpha;beta;" = ["alpha", "beta"]) :=
  ⟨rfl, (keywords_append_spec "keywords" [(enId, "alpha;beta;")]
    [XNode.elem "keywords" [] []] _ rfl).1⟩

/-! ## Claim C8: the final text is the serialization post-processed by the
literal ` lang=` → ` xml:lang=` substitution -/

/-- The expanded tree of the spec's metainfo example. -/
def demoMetaTree : XNode :=
  .elem "component" []
    [nameDefault,
     .elem "name" [("lang", "en")] [.text "Hello"],
     .elem "name" [("lang", "fr")] [.text "Bonjour"]]

/-- Claim C8: whenever tree expansion succeeds, the text `expand_metainfo`
returns is exactly the serialized tree with every occurrence of ` lang=`
replaced by ` xml:lang=`; on the spec's example the returned text contains
` xml:lang=` and no occurrence of ` lang=` survives the substitution. -/
theorem expandMetainfo_lang_substitution (app : App) (ctx : Context)
    (rootName : String) (rootAttrs : List (String × String))
    (rootChildren : List XNode) (tree : XNode)
    (hok : expandMetainfoTree app ctx rootName rootAttrs rootChildren = .ok tree) :
    expandMetainfo app ctx rootName rootAttrs rootChildren =
      .ok (replaceStr (serializeXNode tree) " lang=" " xml:lang=") ∧
    (∃ out, expandMetainfo appTitled ctxEnFr "component" [] [nameDefault] = .ok out ∧
      hasSubstr out.data (" xml:lang=".data) = true ∧
      hasSubstr out.data (" lang=".data) = false) := by
  constructor
  · unfold expandMetainfo
    rw [hok]
  · exact ⟨replaceStr (serializeXNode demoMetaTree) " lang=" " xml:lang=",
      rfl, by decide, by decide⟩

/-- Claim C8, witness: on the spec's example the tree expands successfully
and the final text is the substituted serialization. -/
theorem expandMetainfo_lang_substitution_witness :
    expandMetainfoTree appTitled ctxEnFr "component" [] [nameDefault] =
      .ok demoMetaTree ∧
    expandMetainfo appTitled ctxEnFr "component" [] [nameDefault] =
      .ok (replaceStr (serializeXNode demoMetaTree) " lang=" " xml:lang=") :=
  ⟨rfl, (expandMetainfo_lang_substitution appTitled ctxEnFr "component" []
    [nameDefault] demoMetaTree rfl).1⟩

/-! ## Claim C3: which duplicate definitions are actually rejected -/

theorem mapExcept_ok_of_all {α β : Type} (f : α → Except String β) :
    ∀ l : List α, (∀ x ∈ l, ∃ y, f x = .ok y) → ∃ ys, mapExcept f l = .ok ys := by
  intro l
  induction l with
  | nil => intro h; exact ⟨[], rfl⟩
  | cons a rest ih =>
    intro h
    obtain ⟨y, hy⟩ := h a (List.mem_cons_self _ _)
    obtain ⟨ys, hys⟩ := ih (fun x hx => h x (List.mem_cons_of_mem _ hx))
    refine ⟨y :: ys, ?_⟩
    unfold mapExcept
    rw [hy, hys]

/-- A template with two unlocalized `Name` lines in the primary section. -/
def dupDesktop : List DSection :=
  [⟨"Desktop Entry", [(⟨"Name", none⟩, ["A"]), (⟨"Name", none⟩, ["B"])]⟩]

/-- A descriptor with both the title and the keywords messages set. -/
def appKw : App := ⟨"app-name", none, some "app-name"⟩

/-- A metainfo child list with two `keywords` containers. -/
def dupKeywordsChildren : List XNode :=
  [nameDefault, XNode.elem "keywords" [] [], XNode.elem "keywords" [] [XNode.text "x"]]

/-- Claim C3, counterexample: neither duplicate unlocalized `Name` lines in
a desktop template nor duplicate `keywords` containers in a metainfo
template cause an error — both expansions succeed. -/
theorem expand_duplicates_not_rejected :
    (∃ out, expandDesktop appTitled ctxEnFr dupDesktop = .ok out) ∧
    (∃ tree, expandMetainfoTree appKw ctxEnFr "component" [] dupKeywordsChildren =
      .ok tree) :=
  ⟨⟨[.original "[Desktop Entry]", .original "Name=A",
      .injected "Name[en]=Hello", .injected "Name[fr]=Bonjour",
      .original "Name=B",
      .injected "Name[en]=Hello", .injected "Name[fr]=Bonjour"], rfl⟩,
    ⟨XNode.elem "component" []
      [nameDefault,
        XNode.elem "name" [("lang", "en")] [XNode.text "Hello"],
        XNode.elem "name" [("lang", "fr")] [XNode.text "Bonjour"],
        XNode.elem "keywords" []
          [XNode.elem "keyword" [("lang", "en")] [XNode.text "Hello"],
           XNode.elem "keyword" [("lang", "fr")] [XNode.text "Bonjour"]],
        XNode.elem "keywords" [] [XNode.text "x"]], rfl⟩⟩

/-- Claim C3 (amended): duplicate detection exists only in the metainfo
anchor scan — two unattributed elements with the anchor tag name are a hard
"redefined tag" failure.  The desktop expander never fails on duplicate
unlocalized lines (any template whose recognized populated keys carry no
bracket parameter expands successfully, duplicates included), and duplicate
`keywords` containers are not detected: the keyword elements are appended
to the first container and later ones are left untouched. -/
theorem duplicate_field_handling :
    (∀ (children : List XNode) (ctx : Context) (tag fl : String),
      (∀ y ∈ children, isAttrMatch tag y = false) →
      2 ≤ children.countP (isCleanMatch tag) →
      expandLocale ctx children tag fl =
        .error ("template has redefined tag " ++ tag)) ∧
    (∀ (app : App) (ctx : Context) (t : List DSection),
      (∀ sec ∈ t, ∀ a ∈ sec.attrs,
        a.1.par = none ∨ fluentFor app sec.name a.1.key = none) →
      ∃ out, expandDesktop app ctx t = .ok out) ∧
    (expandMetainfoTree appKw ctxEnFr "component" [] dupKeywordsChildren =
      .ok (XNode.elem "component" []
        [nameDefault,
          XNode.elem "name" [("lang", "en")] [XNode.text "Hello"],
          XNode.elem "name" [("lang", "fr")] [XNode.text "Bonjour"],
          XNode.elem "keywords" []
            [XNode.elem "keyword" [("lang", "en")] [XNode.text "Hello"],
             XNode.elem "keyword" [("lang", "fr")] [XNode.text "Bonjour"]],
          XNode.elem "keywords" [] [XNode.text "x"]])) := by
  refine ⟨?_, ?_, rfl⟩
  · intro children ctx tag fl h1 h2
    have hs : scanAnchor tag children = .error ("template has redefined tag " ++ tag) := by
      refine scanGo_redefined tag children 0 none h1 ?_
      rw [Option.isSome_none, if_neg (by simp : ¬ (false = true))]
      omega
    unfold expandLocale
    rw [hs]
  · intro app ctx t h
    have hattr : ∀ sec ∈ t, ∀ a ∈ sec.attrs, ∃ y, expandAttr app ctx sec.name a = .ok y := by
      intro sec hsec a ha
      rcases h sec hsec a ha with hp | hf
      · unfold expandAttr
        cases hfl : fluentFor app sec.name a.1.key with
        | none => exact ⟨_, rfl⟩
        | some fl => rw [hp]; exact ⟨_, rfl⟩
      · unfold expandAttr
        rw [hf]
        exact ⟨_, rfl⟩
    have hsec : ∀ sec ∈ t, ∃ y, expandSection app ctx sec = .ok y := by
      intro sec hsec
      obtain ⟨bodies, hb⟩ := mapExcept_ok_of_all (expandAttr app ctx sec.name)
        sec.attrs (hattr sec hsec)
      refine ⟨OutLine.original ("[" ++ sec.name ++ "]") :: bodies.flatten, ?_⟩
      unfold expandSection
      rw [hb]
    obtain ⟨secs, hsecs⟩ := mapExcept_ok_of_all (expandSection app ctx) t hsec
    refine ⟨secs.flatten, ?_⟩
    unfold expandDesktop
    rw [hsecs]

/-- Claim C3 (amended), witness: the redefined-tag error on a concrete
duplicate anchor, and a successful expansion of the duplicate-`Name`
template. -/
theorem duplicate_field_handling_witness :
    expandLocale ctxEnFr [nameDefault, nameDefault] "name" "app-name" =
      .error ("template has redefined tag " ++ "name") ∧
    (∃ out, expandDesktop appTitled ctxEnFr dupDesktop = .ok out) :=
  ⟨duplicate_field_handling.1 [nameDefault, nameDefault] ctxEnFr "name" "app-name"
      (by decide) (by decide),
    duplicate_field_handling.2.1 appTitled ctxEnFr dupDesktop (by decide)⟩

/-! ## Claim C9: registry construction over a well-formed directory -/

theorem mem_insertSorted {β : Type} (k : LangId) (v : β) :
    ∀ (l : List (LangId × β)) (p : LangId × β),
      p ∈ insertSorted k v l → p = (k, v) ∨ p ∈ l := by
  intro l
  induction l with
  | nil =>
    intro p hp
    rcases List.mem_singleton.mp hp with h
    exact Or.inl h
  | cons q rest ih =>
    intro p hp
    obtain ⟨k2, v2⟩ := q
    by_cases h1 : k = k2
    · subst h1
      simp only [insertSorted, if_pos rfl] at hp
      rcases List.mem_cons.mp hp with hp | hp
      · exact Or.inl hp
      · exact Or.inr (List.mem_cons_of_mem _ hp)
    · by_cases h2 : langLt k k2 = true
      · simp only [insertSorted, if_neg h1, if_pos h2] at hp
        rcases List.mem_cons.mp hp with hp | hp
        · exact Or.inl hp
        · exact Or.inr hp
      · simp only [insertSorted, if_neg h1, if_neg h2] at hp
        rcases List.mem_cons.mp hp with hp | hp
        · exact Or.inr (by rw [hp]; exact List.mem_cons_self _ _)
        · rcases ih p hp with h | h
          · exact Or.inl h
          · exact Or.inr (List.mem_cons_of_mem _ h)

theorem collectLangFiles_spec :
    ∀ entries : List DirEntry,
      (∀ e ∈ entries, e.readable = true ∧ (e.isDir = true → (langParse e.name).isSome)) →
      ∃ m, collectLangFiles entries = .ok m ∧ SortedKeys m ∧
        (∀ lang, lang ∈ keysOf m ↔
          ∃ e ∈ entries, e.isDir = true ∧ langParse e.name = some lang) ∧
        (∀ p ∈ m, p.2 ∈ entries ∧ p.2.isDir = true ∧ langParse p.2.name = some p.1) := by
  intro entries
  induction entries with
  | nil =>
    intro h
    refine ⟨[], rfl, List.Pairwise.nil, ?_, by simp⟩
    intro lang
    simp [keysOf]
  | cons e rest ih =>
    intro h
    obtain ⟨hread, hdir⟩ := h e (List.mem_cons_self _ _)
    obtain ⟨m, hok, hsort, hmem, hval⟩ :=
      ih (fun x hx => h x (List.mem_cons_of_mem _ hx))
    by_cases hd : e.isDir = true
    · obtain ⟨lang, hlang⟩ := Option.isSome_iff_exists.mp (hdir hd)
      refine ⟨insertSorted lang e m, ?_, sortedKeys_insertSorted lang e m hsort, ?_, ?_⟩
      · unfold collectLangFiles
        rw [if_neg (by rw [hread]; simp), if_neg (by rw [hd]; simp), hlang, hok]
      · intro lang2
        rw [mem_keys_insertSorted, hmem]
        constructor
        · rintro (h2 | ⟨e2, he2, hd2, hl2⟩)
          · exact ⟨e, List.mem_cons_self _ _, hd, h2 ▸ hlang⟩
          · exact ⟨e2, List.mem_cons_of_mem _ he2, hd2, hl2⟩
        · rintro ⟨e2, he2, hd2, hl2⟩
          rcases List.mem_cons.mp he2 with he2 | he2
          · left
            rw [he2] at hl2
            rw [hlang] at hl2
            injection hl2 with h3
            exact h3.symm
          · right
            exact ⟨e2, he2, hd2, hl2⟩
      · intro p hp
        rcases mem_insertSorted lang e m p hp with h2 | h2
        · rw [h2]
          exact ⟨List.mem_cons_self _ _, hd, hlang⟩
        · obtain ⟨h3, h4, h5⟩ := hval p h2
          exact ⟨List.mem_cons_of_mem _ h3, h4, h5⟩
    · refine ⟨m, ?_, hsort, ?_, ?_⟩
      · unfold collectLangFiles
        rw [if_neg (by rw [hread]; simp), if_pos (by simpa using hd)]
        exact hok
      · intro lang2
        rw [hmem]
        constructor
        · rintro ⟨e2, he2, hd2, hl2⟩
          exact ⟨e2, List.mem_cons_of_mem _ he2, hd2, hl2⟩
        · rintro ⟨e2, he2, hd2, hl2⟩
          rcases List.mem_cons.mp he2 with he2 | he2
          · exact absurd (he2 ▸ hd2) hd
          · exact ⟨e2, he2, hd2, hl2⟩
      · intro p hp
        obtain ⟨h3, h4, h5⟩ := hval p hp
        exact ⟨List.mem_cons_of_mem _ h3, h4, h5⟩

theorem collectLangFiles_length :
    ∀ entries : List DirEntry,
      (∀ e ∈ entries, e.readable = true ∧ (e.isDir = true → (langParse e.name).isSome)) →
      ((entries.filter (fun e => e.isDir)).map (fun e => langParse e.name)).Nodup →
      ∃ m, collectLangFiles entries = .ok m ∧
        m.length = (entries.filter (fun e => e.isDir)).length := by
  intro entries
  induction entries with
  | nil => intro h hnodup; exact ⟨[], rfl, rfl⟩
  | cons e rest ih =>
    intro h hnodup
    obtain ⟨hread, hdir⟩ := h e (List.mem_cons_self _ _)
    have hrest : ∀ x ∈ rest, x.readable = true ∧ (x.isDir = true → (langParse x.name).isSome) :=
      fun x hx => h x (List.mem_cons_of_mem _ hx)
    by_cases hd : e.isDir = true
    · rw [List.filter_cons_of_pos (by rw [hd])] at hnodup ⊢
      rw [List.map_cons, List.nodup_cons] at hnodup
      obtain ⟨hfresh, hnodup2⟩ := hnodup
      obtain ⟨m, hok, hlen⟩ := ih hrest hnodup2
      obtain ⟨m2, hok2, hsort, hmem, hval⟩ := collectLangFiles_spec rest hrest
      obtain hmm : m2 = m := by
        rw [hok] at hok2
        injection hok2 with h5
        exact h5.symm
      rw [hmm] at hmem hval
      obtain ⟨lang, hlang⟩ := Option.isSome_iff_exists.mp (hdir hd)
      have hnotmem : lang ∉ keysOf m := by
        intro hmem2
        obtain ⟨e2, he2, hd2, hl2⟩ := (hmem lang).mp hmem2
        refine hfresh ?_
        rw [← hlang] at hl2
        exact List.mem_map.mpr ⟨e2, List.mem_filter.mpr ⟨he2, by rw [hd2]⟩, hl2⟩
      refine ⟨insertSorted lang e m, ?_, ?_⟩
      · unfold collectLangFiles
        rw [if_neg (by rw [hread]; simp), if_neg (by rw [hd]; simp), hlang, hok]
      · rw [length_insertSorted_of_not_mem lang e m hnotmem, List.length_cons, hlen]
    · rw [List.filter_cons_of_neg (by simpa using hd)] at hnodup ⊢
      obtain ⟨m, hok, hlen⟩ := ih hrest hnodup
      refine ⟨m, ?_, hlen⟩
      unfold collectLangFiles
      rw [if_neg (by rw [hread]; simp), if_pos (by simpa using hd)]
      exact hok

theorem buildBundles_spec :
    ∀ m : List (LangId × DirEntry),
      (∀ p ∈ m, (p.2.catalog).isSome) →
      ∃ reg, buildBundles m = .ok reg ∧
        (∀ k, k ∈ keysOf reg ↔ k ∈ keysOf m) ∧
        ((keysOf m).Nodup → reg.length = m.length) := by
  intro m
  induction m with
  | nil =>
    intro h
    exact ⟨[], rfl, fun k => Iff.rfl, fun _ => rfl⟩
  | cons p rest ih =>
    intro h
    obtain ⟨lang, e⟩ := p
    obtain ⟨src, hsrc⟩ := Option.isSome_iff_exists.mp (h _ (List.mem_cons_self _ _))
    obtain ⟨reg, hok, hkeys, hlen⟩ := ih (fun x hx => h x (List.mem_cons_of_mem _ hx))
    refine ⟨insertSorted lang (mkBundle src) reg, ?_, ?_, ?_⟩
    · unfold buildBundles
      rw [hsrc, hok]
    · intro k
      rw [mem_keys_insertSorted]
      have hc : keysOf ((lang, e) :: rest) = lang :: keysOf rest := rfl
      rw [hc, List.mem_cons, hkeys k]
    · intro hnodup
      have hc : keysOf ((lang, e) :: rest) = lang :: keysOf rest := rfl
      rw [hc, List.nodup_cons] at hnodup
      obtain ⟨hfresh, hnodup2⟩ := hnodup
      have hnotmem : lang ∉ keysOf reg := fun h2 => hfresh ((hkeys lang).mp h2)
      rw [length_insertSorted_of_not_mem lang (mkBundle src) reg hnotmem,
        List.length_cons, hlen hnodup2]

/-- Claim C9 (amended): for a well-formed catalog directory (entries
readable, directory names valid language identifiers, catalog files
readable — catalog content playing no role), registry construction
succeeds, with one bundle per distinct parsed Language Tag; when the
subdirectory names parse to pairwise distinct tags this is exactly one
bundle per subdirectory, but names normalizing to the same tag share a
single bundle. -/
theorem contextNew_registry (entries : List DirEntry)
    (hwf : ∀ e ∈ entries, e.readable = true ∧
      (e.isDir = true → (langParse e.name).isSome ∧ e.catalog.isSome)) :
    ∃ ctx, contextNew entries = .ok ctx ∧
      (∀ lang, lang ∈ keysOf ctx.lang_bundles ↔
        ∃ e ∈ entries, e.isDir = true ∧ langParse e.name = some lang) ∧
      (((entries.filter (fun e => e.isDir)).map (fun e => langParse e.name)).Nodup →
        ctx.lang_bundles.length = (entries.filter (fun e => e.isDir)).length) := by
  have hwf1 : ∀ e ∈ entries, e.readable = true ∧ (e.isDir = true → (langParse e.name).isSome) :=
    fun e he => ⟨(hwf e he).1, fun hd => ((hwf e he).2 hd).1⟩
  obtain ⟨m, hok, hsort, hmem, hval⟩ := collectLangFiles_spec entries hwf1
  have hcat : ∀ p ∈ m, (p.2.catalog).isSome := by
    intro p hp
    obtain ⟨h1, h2, h3⟩ := hval p hp
    exact ((hwf p.2 h1).2 h2).2
  obtain ⟨reg, hok2, hkeys, hlen⟩ := buildBundles_spec m hcat
  refine ⟨⟨reg⟩, ?_, ?_, ?_⟩
  · unfold contextNew
    rw [hok]
    show (match buildBundles m with
      | Except.error msg => Except.error msg
      | Except.ok bundles => Except.ok ⟨bundles⟩) = Except.ok (⟨reg⟩ : Context)
    rw [hok2]
  · intro lang
    exact (hkeys lang).trans (hmem lang)
  · intro hnodup
    obtain ⟨m2, hokm2, hlenm2⟩ := collectLangFiles_length entries hwf1 hnodup
    obtain hmm : m2 = m := by
      rw [hok] at hokm2
      injection hokm2 with h5
      exact h5.symm
    rw [hmm] at hlenm2
    rw [hlen (sortedKeys_nodup m hsort), hlenm2]

/-- An empty but readable catalog source. -/
def srcEmpty : FluentSource := ⟨[], 0⟩

/-- Two subdirectories whose names are distinct but normalize to the same
language identifier. -/
def cexEntries : List DirEntry :=
  [⟨"en-US", true, true, some srcEmpty⟩, ⟨"en_US", true, true, some srcEmpty⟩]

/-- Claim C9, counterexample: a well-formed directory with two
subdirectories, `en-US` and `en_US`, whose names parse to the same
normalized Language Tag — construction succeeds but the registry holds one
bundle, not one per subdirectory. -/
theorem contextNew_collapses_equal_tags :
    (∀ e ∈ cexEntries, e.readable = true ∧
      (e.isDir = true → (langParse e.name).isSome ∧ e.catalog.isSome)) ∧
    (cexEntries.filter (fun e => e.isDir)).length = 2 ∧
    langParse "en-US" = langParse "en_US" ∧
    (∃ ctx, contextNew cexEntries = .ok ctx ∧ ctx.lang_bundles.length = 1) :=
  ⟨by decide, rfl, rfl, ⟨⟨[(⟨"en", some "US"⟩, ⟨[]⟩)]⟩, rfl, rfl⟩⟩

/-- A well-formed directory with two distinct-tag subdirectories. -/
def wfEntries : List DirEntry :=
  [⟨"en", true, true, some srcEmpty⟩, ⟨"fr", true, true, some srcEmpty⟩]

/-- Claim C9 (amended), witness: a well-formed directory with `en` and `fr`
subdirectories yields a registry with exactly one bundle per subdirectory. -/
theorem contextNew_registry_witness :
    (∀ e ∈ wfEntries, e.readable = true ∧
      (e.isDir = true → (langParse e.name).isSome ∧ e.catalog.isSome)) ∧
    (∃ ctx, contextNew wfEntries = .ok ctx ∧
      (∀ lang, lang ∈ keysOf ctx.lang_bundles ↔
        ∃ e ∈ wfEntries, e.isDir = true ∧ langParse e.name = some lang) ∧
      (((wfEntries.filter (fun e => e.isDir)).map (fun e => langParse e.name)).Nodup →
        ctx.lang_bundles.length = (wfEntries.filter (fun e => e.isDir)).length)) :=
  ⟨by decide, contextNew_registry wfEntries (by decide)⟩
